import Mathlib

/-!
Shallow embedding of the `completion-trie` Rust crate (`src/lib.rs`) and
verification of its specification claims.

The crate stores items keyed by byte strings with integer (`i32`) scores in a
trie (`CompletionTree` / `Node`) and answers prefix queries with a lazy
best-first traversal (`CompletionIter`) driven by a max-priority queue over
`Scored<ExploreMarker>` entries.

Modelling decisions:
* Bytes (`u8`) are modelled as `Nat`; only equality and ordering of bytes is
  used by the code, so this is faithful.
* Scores (`i32`) are modelled as `Int`; the code performs no arithmetic on
  scores besides `std::cmp::max` comparisons, so no wraparound can occur.
  Claim C8 additionally establishes the `i32` range bounds explicitly.
* `BTreeMap<u8, Node<T>>` is modelled as an association list sorted by key
  (`lookupChild` / `setChild` mirror `get` / `entry(..).or_insert_with`);
  iteration over `children.values()` is in ascending key order, as in Rust.
* `BinaryHeap<Scored<_>>` is modelled as a list with a max-extraction
  `popMax`. Rust's `BinaryHeap` pops a maximal element; its order among
  equal-priority entries is unspecified, so any max-extraction is a faithful
  model. `popMax` deterministically takes the leftmost maximum.
* The iterator `CompletionIter::next` is modelled by `drainFuel`, which
  produces the whole yielded sequence (one list element per `next` call that
  returns `Some`). The fuel argument only forces termination; `queueWeight`
  fuel is always sufficient. Each yielded element is paired with the score of
  the popped `Scored` wrapper (the Rust iterator yields `&T`; the score is
  recorded here so the spec's statements about result scores can be stated).
-/

set_option linter.unusedVariables false

namespace CompletionTrie

/-- Rust `type Score = i32;` modelled as `Int` (the code only compares
scores, never adds them). -/
abbrev Score := Int

/-- Rust `pub struct Key { bytes: Vec<u8>, score: Score }`. -/
structure Key where
  bytes : List Nat
  score : Score
deriving DecidableEq, Repr

/-- Rust `struct Scored<T> { item: T, score: Score }`, ordered by `score`. -/
structure Scored (E : Type) where
  item : E
  score : Score
deriving Repr

/-- Rust `struct Node<T> { items: Vec<Scored<T>>, children: BTreeMap<u8, Node<T>>,
max_score: Score }`.  The `BTreeMap` is modelled as an association list sorted
by key. -/
inductive Node (T : Type) : Type where
  | mk (items : List (T × Score)) (children : List (Nat × Node T)) (max_score : Score)

def Node.items {T : Type} : Node T → List (T × Score)
  | .mk i _ _ => i

def Node.children {T : Type} : Node T → List (Nat × Node T)
  | .mk _ c _ => c

def Node.max_score {T : Type} : Node T → Score
  | .mk _ _ m => m

/-- Rust `Node::new(max_score)`. -/
def Node.new {T : Type} (ms : Score) : Node T := .mk [] [] ms

/-- Model of `BTreeMap::get` on the sorted association list of children. -/
def lookupChild {T : Type} : List (Nat × Node T) → Nat → Option (Node T)
  | [], _ => none
  | (k, c) :: rest, b => if b = k then some c else lookupChild rest b

/-- Store a child under byte `b`, keeping the association list sorted by key
(replacing an existing entry for `b`); this is the state of the `BTreeMap`
after `entry(b).or_insert_with(..)` followed by mutation through the entry. -/
def setChild {T : Type} : List (Nat × Node T) → Nat → Node T → List (Nat × Node T)
  | [], b, c => [(b, c)]
  | (k, x) :: rest, b, c =>
    if b < k then (b, c) :: (k, x) :: rest
    else if b = k then (b, c) :: rest
    else (k, x) :: setChild rest b c

/-- Rust `Node::put_key`: walk the key's bytes from this node, updating
`max_score` with `max(score, cur.max_score)` at every visited node, creating
missing children with `Node::new(score)`, and pushing `(item, score)` onto the
terminal node's `items`. -/
def Node.put_key {T : Type} : Node T → List Nat → Score → T → Node T
  | .mk items children ms, [], score, item =>
      .mk (items ++ [(item, score)]) children (max score ms)
  | .mk items children ms, b :: bs, score, item =>
      .mk items
        (setChild children b
          (((lookupChild children b).getD (Node.new score)).put_key bs score item))
        (max score ms)

/-- Rust `Node::descendent`: follow child edges one byte at a time. -/
def Node.descendent {T : Type} : Node T → List Nat → Option (Node T)
  | n, [] => some n
  | .mk _ children _, b :: bs =>
    match lookupChild children b with
    | none => none
    | some c => c.descendent bs

mutual

/-- Number of nodes plus number of stored item entries in a subtree; used as
fuel for the traversal. -/
def Node.totalSize {T : Type} : Node T → Nat
  | .mk items children _ => 1 + items.length + childrenSize children

/-- Sum of `totalSize` over an association list of children. -/
def childrenSize {T : Type} : List (Nat × Node T) → Nat
  | [] => 0
  | (_, c) :: rest => Node.totalSize c + childrenSize rest

end

mutual

/-- All `(item, score)` entries stored in a subtree, in depth-first order. -/
def Node.allItems {T : Type} : Node T → List (T × Score)
  | .mk items children _ => items ++ childrenItems children

/-- Concatenation of `allItems` over an association list of children. -/
def childrenItems {T : Type} : List (Nat × Node T) → List (T × Score)
  | [] => []
  | (_, c) :: rest => Node.allItems c ++ childrenItems rest

end

/-- Rust `enum ExploreMarker<'a, T> { Item(&'a T), Node(&'a Node<T>) }`. -/
inductive ExploreMarker (T : Type) : Type where
  | item (t : T)
  | node (n : Node T)

/-- Fuel contributed by one queue entry: item markers weigh `1`, node markers
weigh the subtree's `totalSize`. -/
def entryWeight {T : Type} : Scored (ExploreMarker T) → Nat
  | ⟨.item _, _⟩ => 1
  | ⟨.node n, _⟩ => Node.totalSize n

/-- Total fuel of a queue. -/
def queueWeight {T : Type} : List (Scored (ExploreMarker T)) → Nat
  | [] => 0
  | e :: rest => entryWeight e + queueWeight rest

/-- Model of `BinaryHeap::pop`: extract a maximal-score entry (the leftmost maximum;
Rust leaves the order among equal scores unspecified). -/
def popMax {E : Type} : List (Scored E) → Option (Scored E × List (Scored E))
  | [] => none
  | x :: xs =>
    match popMax xs with
    | none => some (x, [])
    | some (m, rest) => if x.score < m.score then some (m, x :: rest) else some (x, xs)

/-- The entries pushed when `CompletionIter::next` expands a node marker: one
item marker per stored `(item, score)` pair (priority = the item's score) and
one node marker per child (priority = the child's cached `max_score`), children
in ascending byte order as `BTreeMap::values` iterates. -/
def expand {T : Type} (n : Node T) : List (Scored (ExploreMarker T)) :=
  n.items.map (fun p => ⟨.item p.1, p.2⟩) ++
    n.children.map (fun c => ⟨.node c.2, c.2.max_score⟩)

/-- The full sequence of results yielded by repeatedly calling
`CompletionIter::next` on a queue, with the score of each popped item marker.
Each step pops a maximal entry; an item marker is yielded, a node marker is
expanded. `fuel ≥ queueWeight q` always suffices (each step strictly decreases
the weight). -/
def drainFuel {T : Type} : Nat → List (Scored (ExploreMarker T)) → List (T × Score)
  | 0, _ => []
  | fuel + 1, q =>
    match popMax q with
    | none => []
    | some (⟨.item t, s⟩, rest) => (t, s) :: drainFuel fuel rest
    | some (⟨.node n, _⟩, rest) => drainFuel fuel (rest ++ expand n)

/-- The complete yielded sequence of a `CompletionIter` with queue `q`. -/
def drain {T : Type} (q : List (Scored (ExploreMarker T))) : List (T × Score) :=
  drainFuel (queueWeight q) q

/-- Rust `pub struct CompletionTree<T>(Option<Node<T>>)`. -/
def CompletionTree (T : Type) : Type := Option (Node T)

/-- Rust `impl Default for CompletionTree`: the empty tree. -/
def CompletionTree.default {T : Type} : CompletionTree T := none

/-- Rust `CompletionTree::put`: for every key of the item, get-or-create the
root with `Node::new(key.score)` and `put_key` the key.  The item's
`Completable::keys()` list is passed explicitly. -/
def CompletionTree.put {T : Type} (t : CompletionTree T) (item : T) (keys : List Key) :
    CompletionTree T :=
  keys.foldl
    (fun acc key =>
      some ((Option.getD acc (Node.new key.score)).put_key key.bytes key.score item))
    t

/-- Rust `CompletionTree::descendent`. -/
def CompletionTree.descendent {T : Type} (t : CompletionTree T) (pre : List Nat) :
    Option (Node T) :=
  Option.bind t (fun n => n.descendent pre)

/-- Rust `CompletionTree::search`: descend to the subtree at `pre` and drain
the best-first iterator seeded with that subtree root (`CompletionIter::from`);
an absent prefix gives `CompletionIter::empty`, i.e. no results.  The returned
list is the full sequence the iterator yields, each item paired with the score
of its popped marker. -/
def CompletionTree.search {T : Type} (t : CompletionTree T) (pre : List Nat) :
    List (T × Score) :=
  match CompletionTree.descendent t pre with
  | none => []
  | some n => drain [⟨.node n, n.max_score⟩]

/-- Build a tree from a sequence of `put` operations; each operation is an
item together with the list its `Completable::keys()` returns. -/
def mkTree {T : Type} (ops : List (T × List Key)) : CompletionTree T :=
  ops.foldl (fun t op => CompletionTree.put t op.1 op.2) CompletionTree.default

/-- All `(item, key)` pairs inserted by a sequence of `put` operations, one
per contributing key, in insertion order. -/
def insertedAll {T : Type} : List (T × List Key) → List (T × Key)
  | [] => []
  | (it, keys) :: rest => keys.map (fun k => (it, k)) ++ insertedAll rest

/-- The `(item, score)` entries stored directly at the node reached by `pre`
(empty if no such node). -/
def itemsAtT {T : Type} (t : CompletionTree T) (pre : List Nat) : List (T × Score) :=
  match CompletionTree.descendent t pre with
  | none => []
  | some n => n.items

/-- All `(item, score)` entries in the subtree rooted at the node reached by
`pre` (empty if no such node). -/
def allItemsAtT {T : Type} (t : CompletionTree T) (pre : List Nat) : List (T × Score) :=
  match CompletionTree.descendent t pre with
  | none => []
  | some n => n.allItems

/-- The multiset of `(item, score)` entries represented by one queue entry:
an item marker stands for its single item, a node marker for everything in
the node's subtree. -/
def markerContents {T : Type} : Scored (ExploreMarker T) → List (T × Score)
  | ⟨.item t, s⟩ => [(t, s)]
  | ⟨.node n, _⟩ => n.allItems

/-- The multiset of `(item, score)` entries represented by a whole queue. -/
def queueContents {T : Type} : List (Scored (ExploreMarker T)) → List (T × Score)
  | [] => []
  | e :: rest => markerContents e ++ queueContents rest

/-- The spec's invariant: at every node, the cached `max_score` is at least
the score of every `(item, score)` pair stored directly at the node and at
least every child's `max_score`, recursively at every node of the tree. -/
inductive Node.inv {T : Type} : Node T → Prop where
  | mk {items : List (T × Score)} {children : List (Nat × Node T)} {ms : Score} :
      (∀ p ∈ items, p.2 ≤ ms) →
      (∀ c ∈ children, Node.max_score c.2 ≤ ms) →
      (∀ c ∈ children, Node.inv c.2) →
      Node.inv (.mk items children ms)

/-- Validity of a queue entry: a node marker's priority is the node's cached
`max_score` and the node satisfies the `max_score` invariant (item markers
carry their exact score and need nothing). -/
def entryValid {T : Type} : Scored (ExploreMarker T) → Prop
  | ⟨.item _, _⟩ => True
  | ⟨.node n, s⟩ => s = n.max_score ∧ n.inv

/-- Structural well-formedness of the `BTreeMap` model: at every node the
children's keys are strictly increasing (so keys are distinct and iteration
is in ascending byte order), recursively. -/
inductive Node.wfP {T : Type} : Node T → Prop where
  | mk {items : List (T × Score)} {children : List (Nat × Node T)} {ms : Score} :
      List.Pairwise (fun a b => a < b) (children.map Prod.fst) →
      (∀ c ∈ children, Node.wfP c.2) →
      Node.wfP (.mk items children ms)

/-- The `(item, score)` pairs stored directly at the node reached from `n` by
path `P` (empty if the path is absent). -/
def Node.itemsAt {T : Type} (n : Node T) (P : List Nat) : List (T × Score) :=
  match n.descendent P with
  | none => []
  | some m => m.items

/-- The `(item, score)` pairs stored anywhere in the subtree reached from `n` by
path `P` (empty if the path is absent). -/
def Node.allItemsAt {T : Type} (n : Node T) (P : List Nat) : List (T × Score) :=
  match n.descendent P with
  | none => []
  | some m => m.allItems

/-- Exactness of the cached bound: every node's `max_score` actually occurs
as the score of some entry in its subtree (so together with
`Node.inv.allItems_le` it is the exact maximum), recursively. -/
inductive Node.exact {T : Type} : Node T → Prop where
  | mk {items : List (T × Score)} {children : List (Nat × Node T)} {ms : Score} :
      ms ∈ (Node.allItems (.mk items children ms)).map Prod.snd →
      (∀ c ∈ children, Node.exact c.2) →
      Node.exact (.mk items children ms)

/-- One step of `CompletionTree::put`: insert a single key of `item`,
creating the root with `Node::new(key.score)` if the tree is empty. -/
def putKey1 {T : Type} (t : CompletionTree T) (item : T) (key : Key) : CompletionTree T :=
  some ((Option.getD t (Node.new key.score)).put_key key.bytes key.score item)

/-- The structural well-formedness of the root (if any). -/
def treeWf {T : Type} (t : CompletionTree T) : Prop :=
  match t with
  | none => True
  | some n => n.wfP

/-- The `max_score` invariant at the root (if any); being recursive it covers
every node of the tree. -/
def treeInv {T : Type} (t : CompletionTree T) : Prop :=
  match t with
  | none => True
  | some n => n.inv

/-- Exactness of every cached `max_score` in the tree. -/
def treeExact {T : Type} (t : CompletionTree T) : Prop :=
  match t with
  | none => True
  | some n => n.exact

/-- The `(item, score)` pair contributed by each inserted `(item, key)` pair,
one per contributing key, in insertion order. -/
def insertedPairs {T : Type} (ops : List (T × List Key)) : List (T × Score) :=
  (insertedAll ops).map (fun pr => (pr.1, pr.2.score))

/-- At the node reached by `pre` (if any): the cached `max_score` occurs among
the subtree's scores, bounds all of them (hence is their exact mathematical
maximum), and lies within `[lo, hi]`. -/
def maxScoreExactAt {T : Type} (t : CompletionTree T) (P : List Nat) (lo hi : Score) :
    Prop :=
  match CompletionTree.descendent t P with
  | none => True
  | some n =>
      n.max_score ∈ n.allItems.map Prod.snd ∧
      (∀ sc ∈ n.allItems.map Prod.snd, sc ≤ n.max_score) ∧
      lo ≤ n.max_score ∧ n.max_score ≤ hi

/-! ### Basic facts about the priority queue model -/

theorem entryWeight_pos {T : Type} (e : Scored (ExploreMarker T)) : 1 ≤ entryWeight e := by
  obtain ⟨m, s⟩ := e
  cases m with
  | item t => simp [entryWeight]
  | node n => cases n with
    | mk items children ms => simp [entryWeight, Node.totalSize]; omega

theorem queueWeight_eq_zero {T : Type} {q : List (Scored (ExploreMarker T))}
    (h : queueWeight q = 0) : q = [] := by
  cases q with
  | nil => rfl
  | cons e rest =>
    have := entryWeight_pos e
    simp [queueWeight] at h
    omega

theorem queueWeight_append {T : Type} (a b : List (Scored (ExploreMarker T))) :
    queueWeight (a ++ b) = queueWeight a + queueWeight b := by
  induction a with
  | nil => simp [queueWeight]
  | cons e rest ih => simp [queueWeight, ih]; omega

theorem queueContents_append {T : Type} (a b : List (Scored (ExploreMarker T))) :
    queueContents (a ++ b) = queueContents a ++ queueContents b := by
  induction a with
  | nil => simp [queueContents]
  | cons e rest ih => simp [queueContents, ih]

theorem queueWeight_perm {T : Type} {q q' : List (Scored (ExploreMarker T))}
    (h : q.Perm q') : queueWeight q = queueWeight q' := by
  induction h with
  | nil => rfl
  | cons e _ ih => simp [queueWeight, ih]
  | swap x y l => simp [queueWeight]; omega
  | trans _ _ ih1 ih2 => omega

theorem queueContents_perm {T : Type} {q q' : List (Scored (ExploreMarker T))}
    (h : q.Perm q') : (queueContents q).Perm (queueContents q') := by
  induction h with
  | nil => exact .refl _
  | cons e _ ih => exact ih.append_left (markerContents e)
  | swap x y l =>
    simp only [queueContents]
    rw [← List.append_assoc, ← List.append_assoc]
    exact List.perm_append_comm.append_right (queueContents l)
  | trans _ _ ih1 ih2 => exact ih1.trans ih2

theorem popMax_eq_none {T : Type} {q : List (Scored (ExploreMarker T))} :
    popMax q = none ↔ q = [] := by
  cases q with
  | nil => simp [popMax]
  | cons x xs =>
    simp only [popMax]
    constructor
    · intro h
      cases hx : popMax xs with
      | none => rw [hx] at h; simp at h
      | some p =>
        rw [hx] at h
        obtain ⟨m, rest⟩ := p
        by_cases hlt : x.score < m.score <;> simp [hlt] at h
    · intro h; cases h

theorem popMax_perm {E : Type} {q : List (Scored E)} {e : Scored E}
    {rest : List (Scored E)} (h : popMax q = some (e, rest)) :
    q.Perm (e :: rest) := by
  induction q generalizing e rest with
  | nil => simp [popMax] at h
  | cons x xs ih =>
    simp only [popMax] at h
    cases hx : popMax xs with
    | none =>
      rw [hx] at h
      have hxs : xs = [] := by
        cases xs with
        | nil => rfl
        | cons y ys =>
          exfalso
          simp only [popMax] at hx
          cases hy : popMax ys with
          | none => rw [hy] at hx; simp at hx
          | some p =>
            rw [hy] at hx
            obtain ⟨m, r⟩ := p
            by_cases hlt : y.score < m.score <;> simp [hlt] at hx
      subst hxs
      simp at h
      obtain ⟨he, hr⟩ := h
      subst he; subst hr
      exact .refl _
    | some p =>
      rw [hx] at h
      obtain ⟨m, r⟩ := p
      by_cases hlt : x.score < m.score
      · simp [hlt] at h
        obtain ⟨he, hr⟩ := h
        subst he; subst hr
        have := ih hx
        exact (this.cons x).trans (List.Perm.swap m x r)
      · simp [hlt] at h
        obtain ⟨he, hr⟩ := h
        subst he; subst hr
        exact .refl _

theorem popMax_le {E : Type} {q : List (Scored E)} {e : Scored E}
    {rest : List (Scored E)} (h : popMax q = some (e, rest)) :
    ∀ y ∈ rest, y.score ≤ e.score := by
  induction q generalizing e rest with
  | nil => simp [popMax] at h
  | cons x xs ih =>
    simp only [popMax] at h
    cases hx : popMax xs with
    | none =>
      rw [hx] at h
      simp at h
      obtain ⟨_, hr⟩ := h
      subst hr
      intro y hy; cases hy
    | some p =>
      rw [hx] at h
      obtain ⟨m, r⟩ := p
      by_cases hlt : x.score < m.score
      · simp [hlt] at h
        obtain ⟨he, hr⟩ := h
        subst he; subst hr
        intro y hy
        cases hy with
        | head => exact le_of_lt hlt
        | tail _ hy => exact ih hx y hy
      · simp [hlt] at h
        obtain ⟨he, hr⟩ := h
        subst he; subst hr
        intro y hy
        have hperm := popMax_perm hx
        have : y ∈ m :: r := hperm.mem_iff.mp hy
        cases this with
        | head => exact le_of_not_lt hlt
        | tail _ hy' => exact le_trans (ih hx y hy') (le_of_not_lt hlt)

/-! ### Expanding a node marker -/

theorem queueWeight_map_items {T : Type} (l : List (T × Score)) :
    queueWeight (l.map (fun p => (⟨.item p.1, p.2⟩ : Scored (ExploreMarker T)))) = l.length := by
  induction l with
  | nil => simp [queueWeight]
  | cons p rest ih => simp [queueWeight, entryWeight, ih]; omega

theorem queueWeight_map_children {T : Type} (ch : List (Nat × Node T)) :
    queueWeight (ch.map (fun c => (⟨.node c.2, c.2.max_score⟩ : Scored (ExploreMarker T)))) =
      childrenSize ch := by
  induction ch with
  | nil => simp [queueWeight, childrenSize]
  | cons c rest ih => simp [queueWeight, entryWeight, childrenSize, ih]

theorem queueWeight_expand {T : Type} (n : Node T) :
    queueWeight (expand n) + 1 = n.totalSize := by
  cases n with
  | mk items children ms =>
    simp [expand, queueWeight_append, queueWeight_map_items, queueWeight_map_children,
      Node.items, Node.children, Node.totalSize]
    omega

theorem queueContents_map_items {T : Type} (l : List (T × Score)) :
    queueContents (l.map (fun p => (⟨.item p.1, p.2⟩ : Scored (ExploreMarker T)))) = l := by
  induction l with
  | nil => rfl
  | cons p rest ih => simp [queueContents, markerContents, ih]

theorem queueContents_map_children {T : Type} (ch : List (Nat × Node T)) :
    queueContents (ch.map (fun c => (⟨.node c.2, c.2.max_score⟩ : Scored (ExploreMarker T)))) =
      childrenItems ch := by
  induction ch with
  | nil => rfl
  | cons c rest ih => simp [queueContents, markerContents, childrenItems, ih]

theorem queueContents_expand {T : Type} (n : Node T) :
    queueContents (expand n) = n.allItems := by
  cases n with
  | mk items children ms =>
    simp [expand, queueContents_append, queueContents_map_items, queueContents_map_children,
      Node.items, Node.children, Node.allItems]

/-! ### The drained sequence is the multiset of queue contents -/

theorem drainFuel_perm {T : Type} :
    ∀ (fuel : Nat) (q : List (Scored (ExploreMarker T))), queueWeight q ≤ fuel →
      (drainFuel fuel q).Perm (queueContents q) := by
  intro fuel
  induction fuel with
  | zero =>
    intro q hq
    have : q = [] := queueWeight_eq_zero (Nat.le_zero.mp hq)
    subst this
    exact .refl _
  | succ fuel ih =>
    intro q hq
    cases hp : popMax q with
    | none =>
      have : q = [] := popMax_eq_none.mp hp
      subst this
      exact .refl _
    | some p =>
      obtain ⟨e, rest⟩ := p
      have hperm := popMax_perm hp
      have hw : queueWeight q = entryWeight e + queueWeight rest := by
        have := queueWeight_perm hperm
        simpa [queueWeight] using this
      obtain ⟨m, s⟩ := e
      cases m with
      | item t =>
        have hrest : queueWeight rest ≤ fuel := by
          have : entryWeight (⟨.item t, s⟩ : Scored (ExploreMarker T)) = 1 := rfl
          omega
        have step : drainFuel (fuel + 1) q = (t, s) :: drainFuel fuel rest := by
          simp [drainFuel, hp]
        rw [step]
        have tail := (ih rest hrest).cons (t, s)
        have : queueContents ((⟨.item t, s⟩ : Scored (ExploreMarker T)) :: rest) =
            (t, s) :: queueContents rest := by
          simp [queueContents, markerContents]
        exact tail.trans (by rw [← this]; exact (queueContents_perm hperm).symm)
      | node n =>
        have hsz := queueWeight_expand n
        have hwq : queueWeight (rest ++ expand n) ≤ fuel := by
          rw [queueWeight_append]
          have : entryWeight (⟨.node n, s⟩ : Scored (ExploreMarker T)) = n.totalSize := rfl
          omega
        have step : drainFuel (fuel + 1) q = drainFuel fuel (rest ++ expand n) := by
          simp [drainFuel, hp]
        rw [step]
        have h1 := ih (rest ++ expand n) hwq
        have h2 : queueContents (rest ++ expand n) =
            queueContents rest ++ n.allItems := by
          rw [queueContents_append, queueContents_expand]
        have h3 : queueContents ((⟨.node n, s⟩ : Scored (ExploreMarker T)) :: rest) =
            n.allItems ++ queueContents rest := by
          simp [queueContents, markerContents]
        refine h1.trans ?_
        rw [h2]
        refine List.perm_append_comm.trans ?_
        rw [← h3]
        exact (queueContents_perm hperm).symm

theorem drain_perm {T : Type} (q : List (Scored (ExploreMarker T))) :
    (drain q).Perm (queueContents q) :=
  drainFuel_perm (queueWeight q) q (le_refl _)

/-! ### The cached `max_score` invariant (spec section 3, claim C5) -/

theorem Node.inv.items_le {T : Type} {items : List (T × Score)}
    {children : List (Nat × Node T)} {ms : Score}
    (h : Node.inv (.mk items children ms)) : ∀ p ∈ items, p.2 ≤ ms := by
  cases h; assumption

theorem Node.inv.children_le {T : Type} {items : List (T × Score)}
    {children : List (Nat × Node T)} {ms : Score}
    (h : Node.inv (.mk items children ms)) :
    ∀ c ∈ children, Node.max_score c.2 ≤ ms := by
  cases h; assumption

theorem Node.inv.children_inv {T : Type} {items : List (T × Score)}
    {children : List (Nat × Node T)} {ms : Score}
    (h : Node.inv (.mk items children ms)) : ∀ c ∈ children, Node.inv c.2 := by
  cases h; assumption

theorem lookupChild_mem {T : Type} {ch : List (Nat × Node T)} {b : Nat} {c : Node T}
    (h : lookupChild ch b = some c) : (b, c) ∈ ch := by
  induction ch with
  | nil => simp [lookupChild] at h
  | cons p rest ih =>
    obtain ⟨k, x⟩ := p
    simp only [lookupChild] at h
    by_cases hb : b = k
    · simp [hb] at h
      subst hb; subst h
      exact List.mem_cons_self _ _
    · simp [hb] at h
      exact List.mem_cons_of_mem _ (ih h)

theorem Node.inv_descendent {T : Type} {n m : Node T} {P : List Nat}
    (hn : n.inv) (h : n.descendent P = some m) : m.inv := by
  induction P generalizing n with
  | nil =>
    simp [Node.descendent] at h
    subst h; exact hn
  | cons b bs ih =>
    cases n with
    | mk items children ms =>
      simp only [Node.descendent] at h
      cases hl : lookupChild children b with
      | none => rw [hl] at h; simp at h
      | some c =>
        rw [hl] at h
        exact ih (hn.children_inv _ (lookupChild_mem hl)) h

theorem expand_valid {T : Type} {n : Node T} (hn : n.inv) :
    ∀ e ∈ expand n, entryValid e := by
  cases n with
  | mk items children ms =>
    intro e he
    simp only [expand, List.mem_append, List.mem_map] at he
    cases he with
    | inl h =>
      obtain ⟨p, _, hp⟩ := h
      subst hp; trivial
    | inr h =>
      obtain ⟨c, hc, hp⟩ := h
      subst hp
      exact ⟨rfl, hn.children_inv _ hc⟩

theorem expand_le {T : Type} {n : Node T} (hn : n.inv) :
    ∀ e ∈ expand n, e.score ≤ n.max_score := by
  cases n with
  | mk items children ms =>
    intro e he
    simp only [expand, List.mem_append, List.mem_map] at he
    cases he with
    | inl h =>
      obtain ⟨p, hp, hpe⟩ := h
      subst hpe
      exact hn.items_le p (by simpa [Node.items] using hp)
    | inr h =>
      obtain ⟨c, hc, hpe⟩ := h
      subst hpe
      exact hn.children_le c (by simpa [Node.children] using hc)

/-! ### Best-first order: the drained sequence is non-increasing in score -/

theorem drainFuel_le {T : Type} :
    ∀ (fuel : Nat) (q : List (Scored (ExploreMarker T))) (s : Score),
      queueWeight q ≤ fuel → (∀ e ∈ q, entryValid e) → (∀ e ∈ q, e.score ≤ s) →
      ∀ p ∈ drainFuel fuel q, p.2 ≤ s := by
  intro fuel
  induction fuel with
  | zero => intro q s _ _ _ p hp; simp [drainFuel] at hp
  | succ fuel ih =>
    intro q s hq hv hb p hp
    cases hpop : popMax q with
    | none => simp [drainFuel, hpop] at hp
    | some pr =>
      obtain ⟨e, rest⟩ := pr
      have hperm := popMax_perm hpop
      have hw : queueWeight q = entryWeight e + queueWeight rest := by
        have := queueWeight_perm hperm
        simpa [queueWeight] using this
      have hrest_mem : ∀ y ∈ rest, y ∈ q := fun y hy =>
        hperm.mem_iff.mpr (List.mem_cons_of_mem _ hy)
      have he_mem : e ∈ q := hperm.mem_iff.mpr (List.mem_cons_self _ _)
      obtain ⟨m, sc⟩ := e
      cases m with
      | item t =>
        rw [show drainFuel (fuel + 1) q = (t, sc) :: drainFuel fuel rest by
          simp [drainFuel, hpop]] at hp
        cases hp with
        | head => exact hb _ he_mem
        | tail _ hp =>
          refine ih rest s ?_ ?_ ?_ p hp
          · have : entryWeight (⟨.item t, sc⟩ : Scored (ExploreMarker T)) = 1 := rfl
            omega
          · exact fun y hy => hv y (hrest_mem y hy)
          · exact fun y hy => hb y (hrest_mem y hy)
      | node n =>
        rw [show drainFuel (fuel + 1) q = drainFuel fuel (rest ++ expand n) by
          simp [drainFuel, hpop]] at hp
        have hval : entryValid (⟨.node n, sc⟩ : Scored (ExploreMarker T)) := hv _ he_mem
        obtain ⟨hsc, hinv⟩ := hval
        refine ih (rest ++ expand n) s ?_ ?_ ?_ p hp
        · rw [queueWeight_append]
          have h1 := queueWeight_expand n
          have : entryWeight (⟨.node n, sc⟩ : Scored (ExploreMarker T)) = n.totalSize := rfl
          omega
        · intro y hy
          rcases List.mem_append.mp hy with h | h
          · exact hv y (hrest_mem y h)
          · exact expand_valid hinv y h
        · intro y hy
          rcases List.mem_append.mp hy with h | h
          · exact hb y (hrest_mem y h)
          · calc y.score ≤ n.max_score := expand_le hinv y h
              _ = sc := hsc.symm
              _ ≤ s := hb _ he_mem

theorem drainFuel_sorted {T : Type} :
    ∀ (fuel : Nat) (q : List (Scored (ExploreMarker T))),
      queueWeight q ≤ fuel → (∀ e ∈ q, entryValid e) →
      (drainFuel fuel q).Pairwise (fun a b => b.2 ≤ a.2) := by
  intro fuel
  induction fuel with
  | zero => intro q _ _; simp [drainFuel]
  | succ fuel ih =>
    intro q hq hv
    cases hpop : popMax q with
    | none => simp [drainFuel, hpop]
    | some pr =>
      obtain ⟨e, rest⟩ := pr
      have hperm := popMax_perm hpop
      have hw : queueWeight q = entryWeight e + queueWeight rest := by
        have := queueWeight_perm hperm
        simpa [queueWeight] using this
      have hrest_mem : ∀ y ∈ rest, y ∈ q := fun y hy =>
        hperm.mem_iff.mpr (List.mem_cons_of_mem _ hy)
      have he_mem : e ∈ q := hperm.mem_iff.mpr (List.mem_cons_self _ _)
      have hrest_le := popMax_le hpop
      obtain ⟨m, sc⟩ := e
      cases m with
      | item t =>
        rw [show drainFuel (fuel + 1) q = (t, sc) :: drainFuel fuel rest by
          simp [drainFuel, hpop]]
        have hwr : queueWeight rest ≤ fuel := by
          have : entryWeight (⟨.item t, sc⟩ : Scored (ExploreMarker T)) = 1 := rfl
          omega
        have hvr : ∀ y ∈ rest, entryValid y := fun y hy => hv y (hrest_mem y hy)
        refine List.pairwise_cons.mpr ⟨?_, ih rest hwr hvr⟩
        intro p hp
        exact drainFuel_le fuel rest sc hwr hvr hrest_le p hp
      | node n =>
        rw [show drainFuel (fuel + 1) q = drainFuel fuel (rest ++ expand n) by
          simp [drainFuel, hpop]]
        have hval : entryValid (⟨.node n, sc⟩ : Scored (ExploreMarker T)) := hv _ he_mem
        obtain ⟨hsc, hinv⟩ := hval
        refine ih (rest ++ expand n) ?_ ?_
        · rw [queueWeight_append]
          have h1 := queueWeight_expand n
          have : entryWeight (⟨.node n, sc⟩ : Scored (ExploreMarker T)) = n.totalSize := rfl
          omega
        · intro y hy
          rcases List.mem_append.mp hy with h | h
          · exact hv y (hrest_mem y h)
          · exact expand_valid hinv y h

/-! ### Insertion preserves the invariants -/

theorem Node.max_score_put_key {T : Type} (n : Node T) (bs : List Nat) (s : Score) (it : T) :
    (n.put_key bs s it).max_score = max s n.max_score := by
  cases n with
  | mk items children ms => cases bs <;> rfl

theorem mem_setChild {T : Type} {ch : List (Nat × Node T)} {b : Nat} {x : Node T}
    {c : Nat × Node T} (h : c ∈ setChild ch b x) : c = (b, x) ∨ c ∈ ch := by
  induction ch with
  | nil =>
    simp [setChild] at h
    exact Or.inl h
  | cons p rest ih =>
    obtain ⟨k, y⟩ := p
    simp only [setChild] at h
    by_cases h1 : b < k
    · simp [h1] at h
      rcases h with h | h | h
      · exact Or.inl (by simp [h])
      · exact Or.inr (by simp [h])
      · exact Or.inr (List.mem_cons_of_mem _ h)
    · by_cases h2 : b = k
      · simp [h1, h2] at h
        rcases h with h | h
        · exact Or.inl (by simp [h, h2])
        · exact Or.inr (List.mem_cons_of_mem _ h)
      · simp [h1, h2] at h
        rcases h with h | h
        · exact Or.inr (by simp [h])
        · rcases ih h with h | h
          · exact Or.inl h
          · exact Or.inr (List.mem_cons_of_mem _ h)

theorem Node.new_inv {T : Type} (ms : Score) : (Node.new ms : Node T).inv := by
  refine Node.inv.mk ?_ ?_ ?_ <;> intro p hp <;> simp at hp

theorem Node.inv_put_key {T : Type} {n : Node T} (bs : List Nat) (s : Score) (it : T)
    (hn : n.inv) : (n.put_key bs s it).inv := by
  induction bs generalizing n with
  | nil =>
    cases n with
    | mk items children ms =>
      simp only [Node.put_key]
      refine Node.inv.mk ?_ ?_ ?_
      · intro p hp
        rcases List.mem_append.mp hp with h | h
        · exact le_trans (hn.items_le p h) (le_max_right _ _)
        · simp at h
          simp [h]
      · intro c hc
        exact le_trans (hn.children_le c hc) (le_max_right _ _)
      · exact hn.children_inv
  | cons b bs ih =>
    cases n with
    | mk items children ms =>
      simp only [Node.put_key]
      refine Node.inv.mk ?_ ?_ ?_
      · intro p hp
        exact le_trans (hn.items_le p hp) (le_max_right _ _)
      · intro c hc
        rcases mem_setChild hc with h | h
        · subst h
          simp only [Node.max_score_put_key]
          cases hl : lookupChild children b with
          | none =>
            simp [hl, Node.new, Node.max_score]
          | some c0 =>
            simp only [hl, Option.getD_some]
            have := hn.children_le (b, c0) (lookupChild_mem hl)
            simp only [Node.max_score] at this ⊢
            exact max_le_max (le_refl s) this
        · exact le_trans (hn.children_le c h) (le_max_right _ _)
      · intro c hc
        rcases mem_setChild hc with h | h
        · subst h
          cases hl : lookupChild children b with
          | none =>
            simp only [hl, Option.getD_none]
            exact ih (Node.new_inv s)
          | some c0 =>
            simp only [hl, Option.getD_some]
            exact ih (hn.children_inv (b, c0) (lookupChild_mem hl))
        · exact hn.children_inv c h

/-! ### Well-formedness: children association lists are sorted by byte -/

theorem Node.wfP.keys_sorted {T : Type} {items : List (T × Score)}
    {children : List (Nat × Node T)} {ms : Score}
    (h : Node.wfP (.mk items children ms)) :
    List.Pairwise (fun a b => a < b) (children.map Prod.fst) := by
  cases h; assumption

theorem Node.wfP.children_wf {T : Type} {items : List (T × Score)}
    {children : List (Nat × Node T)} {ms : Score}
    (h : Node.wfP (.mk items children ms)) : ∀ c ∈ children, Node.wfP c.2 := by
  cases h; assumption

theorem Node.new_wfP {T : Type} (ms : Score) : (Node.new ms : Node T).wfP := by
  refine Node.wfP.mk ?_ ?_
  · simp
  · intro c hc; simp at hc

theorem keys_setChild_sub {T : Type} {ch : List (Nat × Node T)} {b : Nat} {x : Node T}
    {k : Nat} (h : k ∈ (setChild ch b x).map Prod.fst) :
    k = b ∨ k ∈ ch.map Prod.fst := by
  simp only [List.mem_map] at h ⊢
  obtain ⟨c, hc, hk⟩ := h
  rcases mem_setChild hc with h | h
  · subst h; exact Or.inl hk.symm
  · exact Or.inr ⟨c, h, hk⟩

theorem setChild_sorted {T : Type} {ch : List (Nat × Node T)} (b : Nat) (x : Node T)
    (h : List.Pairwise (fun a b => a < b) (ch.map Prod.fst)) :
    List.Pairwise (fun a b => a < b) ((setChild ch b x).map Prod.fst) := by
  induction ch with
  | nil => simp [setChild]
  | cons p rest ih =>
    obtain ⟨k, y⟩ := p
    simp only [List.map_cons, List.pairwise_cons] at h
    obtain ⟨hk, hrest⟩ := h
    simp only [setChild]
    by_cases h1 : b < k
    · simp only [if_pos h1, List.map_cons, List.pairwise_cons]
      refine ⟨?_, ?_, hrest⟩
      · intro a ha
        simp only [List.mem_cons] at ha
        rcases ha with h | h
        · subst h; exact h1
        · exact lt_trans h1 (hk a h)
      · exact hk
    · by_cases h2 : b = k
      · subst h2
        rw [if_neg h1, if_pos rfl]
        simp only [List.map_cons, List.pairwise_cons]
        exact ⟨hk, hrest⟩
      · simp only [if_neg h1, if_neg h2, List.map_cons, List.pairwise_cons]
        refine ⟨?_, ih hrest⟩
        intro a ha
        rcases keys_setChild_sub ha with h | h
        · subst h
          exact lt_of_le_of_ne (le_of_not_lt h1) (Ne.symm h2)
        · exact hk a h

theorem Node.wfP_put_key {T : Type} {n : Node T} (bs : List Nat) (s : Score) (it : T)
    (hn : n.wfP) : (n.put_key bs s it).wfP := by
  induction bs generalizing n with
  | nil =>
    cases n with
    | mk items children ms =>
      exact Node.wfP.mk hn.keys_sorted hn.children_wf
  | cons b bs ih =>
    cases n with
    | mk items children ms =>
      refine Node.wfP.mk (setChild_sorted b _ hn.keys_sorted) ?_
      intro c hc
      rcases mem_setChild hc with h | h
      · subst h
        cases hl : lookupChild children b with
        | none =>
          simp only [hl, Option.getD_none]
          exact ih (Node.new_wfP s)
        | some c0 =>
          simp only [hl, Option.getD_some]
          exact ih (hn.children_wf (b, c0) (lookupChild_mem hl))
      · exact hn.children_wf c h

/-! ### Items stored in a subtree after an insertion -/

theorem childrenItems_append {T : Type} (a b : List (Nat × Node T)) :
    childrenItems (a ++ b) = childrenItems a ++ childrenItems b := by
  induction a with
  | nil => simp [childrenItems]
  | cons c rest ih => simp [childrenItems, ih]

theorem mem_childrenItems {T : Type} {ch : List (Nat × Node T)} {p : T × Score} :
    p ∈ childrenItems ch ↔ ∃ c ∈ ch, p ∈ Node.allItems c.2 := by
  induction ch with
  | nil => simp [childrenItems]
  | cons c rest ih =>
    simp only [childrenItems, List.mem_append, ih, List.mem_cons]
    constructor
    · rintro (h | ⟨c', hc', hp⟩)
      · exact ⟨c, Or.inl rfl, h⟩
      · exact ⟨c', Or.inr hc', hp⟩
    · rintro ⟨c', hc' | hc', hp⟩
      · subst hc'; exact Or.inl hp
      · exact Or.inr ⟨c', hc', hp⟩

theorem lookupChild_none_of_lt {T : Type} {ch : List (Nat × Node T)} {b : Nat}
    (h : ∀ k ∈ ch.map Prod.fst, b < k) : lookupChild ch b = none := by
  induction ch with
  | nil => rfl
  | cons p rest ih =>
    obtain ⟨k, x⟩ := p
    have hk : b < k := h k (by simp)
    simp only [lookupChild, if_neg (ne_of_lt hk)]
    exact ih fun k' hk' => h k' (by simp [hk'])

theorem setChild_split {T : Type} {ch : List (Nat × Node T)} {b : Nat} {c : Node T}
    (hs : List.Pairwise (fun a b => a < b) (ch.map Prod.fst))
    (h : lookupChild ch b = some c) :
    ∃ l r, ch = l ++ (b, c) :: r ∧ ∀ x, setChild ch b x = l ++ (b, x) :: r := by
  induction ch with
  | nil => simp [lookupChild] at h
  | cons p rest ih =>
    obtain ⟨k, y⟩ := p
    simp only [List.map_cons, List.pairwise_cons] at hs
    obtain ⟨hk, hrest⟩ := hs
    simp only [lookupChild] at h
    by_cases hb : b = k
    · subst hb
      rw [if_pos rfl] at h
      injection h with h
      subst h
      refine ⟨[], rest, by simp, ?_⟩
      intro x
      simp only [setChild]
      rw [if_neg (lt_irrefl b)]
      simp
    · rw [if_neg hb] at h
      have hbk : k < b := by
        by_contra hlt
        have : b < k := lt_of_le_of_ne (le_of_not_lt hlt) hb
        rw [lookupChild_none_of_lt (fun k' hk' => lt_trans this (hk k' hk'))] at h
        exact Option.noConfusion h
      obtain ⟨l, r, hch, hset⟩ := ih hrest h
      refine ⟨(k, y) :: l, r, by simp [hch], ?_⟩
      intro x
      simp only [setChild, if_neg (not_lt_of_gt hbk), if_neg hb, hset x, List.cons_append]

theorem setChild_perm_none {T : Type} {ch : List (Nat × Node T)} {b : Nat} (x : Node T)
    (h : lookupChild ch b = none) : (setChild ch b x).Perm ((b, x) :: ch) := by
  induction ch with
  | nil => simp [setChild]
  | cons p rest ih =>
    obtain ⟨k, y⟩ := p
    simp only [lookupChild] at h
    by_cases hb : b = k
    · simp [hb] at h
    · rw [if_neg hb] at h
      simp only [setChild]
      by_cases h1 : b < k
      · simp [h1]
      · rw [if_neg h1, if_neg hb]
        exact ((ih h).cons (k, y)).trans (List.Perm.swap (b, x) (k, y) rest)

theorem lookupChild_setChild {T : Type} (ch : List (Nat × Node T)) (b : Nat) (x : Node T)
    (k : Nat) :
    lookupChild (setChild ch b x) k = if k = b then some x else lookupChild ch k := by
  induction ch with
  | nil =>
    simp only [setChild, lookupChild]
  | cons p rest ih =>
    obtain ⟨k2, y⟩ := p
    simp only [setChild]
    by_cases h1 : b < k2
    · simp only [if_pos h1, lookupChild]
    · by_cases h2 : b = k2
      · subst h2
        rw [if_neg h1, if_pos rfl]
        simp only [lookupChild]
        by_cases hk : k = b <;> simp [hk]
      · rw [if_neg h1, if_neg h2]
        simp only [lookupChild]
        by_cases hk : k = k2
        · subst hk
          rw [if_pos rfl, if_neg (by intro h; exact h2 h.symm), if_pos rfl]
        · rw [if_neg hk, ih, if_neg hk]

theorem Node.allItems_new {T : Type} (ms : Score) : (Node.new ms : Node T).allItems = [] := rfl

theorem childrenItems_perm {T : Type} {ch ch' : List (Nat × Node T)} (h : ch.Perm ch') :
    (childrenItems ch).Perm (childrenItems ch') := by
  induction h with
  | nil => exact .refl _
  | cons c _ ih =>
    obtain ⟨kc, nc⟩ := c
    simp only [childrenItems]
    exact ih.append_left _
  | swap x y l =>
    obtain ⟨kx, nx⟩ := x
    obtain ⟨ky, ny⟩ := y
    simp only [childrenItems]
    rw [← List.append_assoc, ← List.append_assoc]
    exact List.perm_append_comm.append_right (childrenItems l)
  | trans _ _ ih1 ih2 => exact ih1.trans ih2

theorem Node.allItems_put_key {T : Type} {n : Node T} (bs : List Nat) (s : Score) (it : T)
    (hn : n.wfP) : (n.put_key bs s it).allItems.Perm ((it, s) :: n.allItems) := by
  induction bs generalizing n with
  | nil =>
    cases n with
    | mk items children ms =>
      simp only [Node.put_key, Node.allItems]
      have h1 : ((items ++ [(it, s)]) ++ childrenItems children).Perm
          (((it, s) :: items) ++ childrenItems children) :=
        (List.perm_append_singleton (it, s) items).append_right _
      rw [List.cons_append] at h1
      exact h1
  | cons b bs ih =>
    cases n with
    | mk items children ms =>
      simp only [Node.put_key, Node.allItems]
      cases hl : lookupChild children b with
      | none =>
        simp only [Option.getD_none]
        have hperm := setChild_perm_none ((Node.new s).put_key bs s it) hl
        have hci : (childrenItems (setChild children b
            ((Node.new s).put_key bs s it))).Perm
            (Node.allItems ((Node.new s).put_key bs s it) ++ childrenItems children) := by
          refine (childrenItems_perm hperm).trans ?_
          simp [childrenItems]
        have hsub : (Node.allItems ((Node.new s).put_key bs s it)).Perm [(it, s)] :=
          ih (Node.new_wfP s)
        refine (hci.append_left items).trans ?_
        refine ((hsub.append_right _).append_left items).trans ?_
        simp
      | some c =>
        have hc_wf : c.wfP := hn.children_wf (b, c) (lookupChild_mem hl)
        obtain ⟨l, r, hch, hset⟩ := setChild_split hn.keys_sorted hl
        simp only [Option.getD_some]
        rw [hset (c.put_key bs s it), hch, childrenItems_append, childrenItems_append]
        simp only [childrenItems]
        have h1 := ih hc_wf
        have h2 : (childrenItems l ++ (Node.allItems (c.put_key bs s it) ++
            childrenItems r)).Perm (childrenItems l ++ (((it, s) :: Node.allItems c) ++
            childrenItems r)) :=
          (h1.append_right (childrenItems r)).append_left (childrenItems l)
        refine (h2.append_left items).trans ?_
        have h4 : items ++ (childrenItems l ++ (((it, s) :: Node.allItems c) ++
            childrenItems r)) = (items ++ childrenItems l) ++
            ((it, s) :: (Node.allItems c ++ childrenItems r)) := by
          simp [List.append_assoc]
        rw [h4]
        refine (@List.perm_middle _ (it, s) (items ++ childrenItems l)
          (Node.allItems c ++ childrenItems r)).trans ?_
        apply List.Perm.cons
        rw [List.append_assoc]

/-! ### Items stored exactly at / below a given path of a node -/

theorem Node.itemsAt_mk_nil {T : Type} (items : List (T × Score))
    (ch : List (Nat × Node T)) (ms : Score) :
    (Node.mk items ch ms).itemsAt [] = items := rfl

theorem Node.allItemsAt_nil {T : Type} (n : Node T) : n.allItemsAt [] = n.allItems := by
  simp [Node.allItemsAt, Node.descendent]

theorem Node.itemsAt_mk_cons_none {T : Type} {items : List (T × Score)}
    {ch : List (Nat × Node T)} {ms : Score} {p : Nat} (P' : List Nat)
    (h : lookupChild ch p = none) :
    (Node.mk items ch ms).itemsAt (p :: P') = [] := by
  simp [Node.itemsAt, Node.descendent, h]

theorem Node.itemsAt_mk_cons_some {T : Type} {items : List (T × Score)}
    {ch : List (Nat × Node T)} {ms : Score} {p : Nat} {c : Node T} (P' : List Nat)
    (h : lookupChild ch p = some c) :
    (Node.mk items ch ms).itemsAt (p :: P') = c.itemsAt P' := by
  simp [Node.itemsAt, Node.descendent, h]

theorem Node.allItemsAt_mk_cons_none {T : Type} {items : List (T × Score)}
    {ch : List (Nat × Node T)} {ms : Score} {p : Nat} (P' : List Nat)
    (h : lookupChild ch p = none) :
    (Node.mk items ch ms).allItemsAt (p :: P') = [] := by
  simp [Node.allItemsAt, Node.descendent, h]

theorem Node.allItemsAt_mk_cons_some {T : Type} {items : List (T × Score)}
    {ch : List (Nat × Node T)} {ms : Score} {p : Nat} {c : Node T} (P' : List Nat)
    (h : lookupChild ch p = some c) :
    (Node.mk items ch ms).allItemsAt (p :: P') = c.allItemsAt P' := by
  simp [Node.allItemsAt, Node.descendent, h]

theorem Node.itemsAt_new {T : Type} (ms : Score) (P : List Nat) :
    (Node.new ms : Node T).itemsAt P = [] := by
  cases P with
  | nil => rfl
  | cons p P' => exact Node.itemsAt_mk_cons_none P' rfl

theorem Node.allItemsAt_new {T : Type} (ms : Score) (P : List Nat) :
    (Node.new ms : Node T).allItemsAt P = [] := by
  cases P with
  | nil => rfl
  | cons p P' => exact Node.allItemsAt_mk_cons_none P' rfl

/-- Inserting a key with byte path `bs` appends exactly one `(item, score)`
pair to the items stored at path `bs` and changes the items stored at no
other path. -/
theorem Node.itemsAt_put_key {T : Type} (n : Node T) (bs P : List Nat) (s : Score) (it : T) :
    (n.put_key bs s it).itemsAt P =
      if P = bs then n.itemsAt P ++ [(it, s)] else n.itemsAt P := by
  induction bs generalizing n P with
  | nil =>
    cases n with
    | mk items ch ms =>
      cases P with
      | nil =>
        rw [if_pos rfl]
        rfl
      | cons p P' =>
        rw [if_neg (by simp)]
        simp only [Node.put_key]
        cases hl : lookupChild ch p with
        | none => rw [Node.itemsAt_mk_cons_none P' hl, Node.itemsAt_mk_cons_none P' hl]
        | some c => rw [Node.itemsAt_mk_cons_some P' hl, Node.itemsAt_mk_cons_some P' hl]
  | cons b bs' ih =>
    cases n with
    | mk items ch ms =>
      cases P with
      | nil =>
        rw [if_neg (by simp)]
        rfl
      | cons p P' =>
        simp only [Node.put_key]
        by_cases hpb : p = b
        · subst hpb
          have hlk := lookupChild_setChild ch p
            (((lookupChild ch p).getD (Node.new s)).put_key bs' s it) p
          rw [if_pos rfl] at hlk
          rw [Node.itemsAt_mk_cons_some P' hlk]
          cases hl : lookupChild ch p with
          | none =>
            simp only [Option.getD_none]
            rw [ih (Node.new s) P', Node.itemsAt_mk_cons_none P' hl, Node.itemsAt_new]
            by_cases hP : P' = bs'
            · rw [if_pos hP, if_pos (by rw [hP])]
            · rw [if_neg hP, if_neg (by simp [hP])]
          | some c =>
            simp only [Option.getD_some]
            rw [ih c P', Node.itemsAt_mk_cons_some P' hl]
            by_cases hP : P' = bs'
            · rw [if_pos hP, if_pos (by rw [hP])]
            · rw [if_neg hP, if_neg (by simp [hP])]
        · have hlk := lookupChild_setChild ch b
            (((lookupChild ch b).getD (Node.new s)).put_key bs' s it) p
          rw [if_neg hpb] at hlk
          rw [if_neg (by simp [hpb])]
          cases hl : lookupChild ch p with
          | none =>
            rw [hl] at hlk
            rw [Node.itemsAt_mk_cons_none P' hlk, Node.itemsAt_mk_cons_none P' hl]
          | some c =>
            rw [hl] at hlk
            rw [Node.itemsAt_mk_cons_some P' hlk, Node.itemsAt_mk_cons_some P' hl]

/-- Inserting a key with byte path `bs` adds the pair `(item, score)` to the
subtree items of every path `P` that is a prefix of `bs` (up to permutation). -/
theorem Node.allItemsAt_put_key_of_pre {T : Type} {n : Node T} {bs P : List Nat}
    (s : Score) (it : T) (hn : n.wfP) (hpre : P <+: bs) :
    ((n.put_key bs s it).allItemsAt P).Perm ((it, s) :: n.allItemsAt P) := by
  induction bs generalizing n P with
  | nil =>
    have hP : P = [] := List.prefix_nil.mp hpre
    subst hP
    rw [Node.allItemsAt_nil, Node.allItemsAt_nil]
    exact Node.allItems_put_key [] s it hn
  | cons b bs' ih =>
    cases P with
    | nil =>
      rw [Node.allItemsAt_nil, Node.allItemsAt_nil]
      exact Node.allItems_put_key (b :: bs') s it hn
    | cons p P' =>
      obtain ⟨hpb, hpre'⟩ := List.cons_prefix_cons.mp hpre
      subst hpb
      cases n with
      | mk items ch ms =>
        simp only [Node.put_key]
        have hlk := lookupChild_setChild ch p
          (((lookupChild ch p).getD (Node.new s)).put_key bs' s it) p
        rw [if_pos rfl] at hlk
        rw [Node.allItemsAt_mk_cons_some P' hlk]
        cases hl : lookupChild ch p with
        | none =>
          simp only [Option.getD_none]
          rw [Node.allItemsAt_mk_cons_none P' hl]
          have h1 := ih (Node.new_wfP s) hpre'
          rw [Node.allItemsAt_new] at h1
          exact h1
        | some c =>
          simp only [Option.getD_some]
          rw [Node.allItemsAt_mk_cons_some P' hl]
          exact ih (hn.children_wf (p, c) (lookupChild_mem hl)) hpre'

/-- Inserting a key with byte path `bs` leaves the subtree items of every
path `P` that is not a prefix of `bs` unchanged. -/
theorem Node.allItemsAt_put_key_of_not_pre {T : Type} {n : Node T} {bs P : List Nat}
    (s : Score) (it : T) (hpre : ¬ P <+: bs) :
    (n.put_key bs s it).allItemsAt P = n.allItemsAt P := by
  induction bs generalizing n P with
  | nil =>
    cases P with
    | nil => exact absurd (List.nil_prefix) hpre
    | cons p P' =>
      cases n with
      | mk items ch ms =>
        simp only [Node.put_key]
        cases hl : lookupChild ch p with
        | none => rw [Node.allItemsAt_mk_cons_none P' hl, Node.allItemsAt_mk_cons_none P' hl]
        | some c => rw [Node.allItemsAt_mk_cons_some P' hl, Node.allItemsAt_mk_cons_some P' hl]
  | cons b bs' ih =>
    cases P with
    | nil => exact absurd (List.nil_prefix) hpre
    | cons p P' =>
      cases n with
      | mk items ch ms =>
        simp only [Node.put_key]
        by_cases hpb : p = b
        · subst hpb
          have hpre' : ¬ P' <+: bs' := fun h => hpre (List.cons_prefix_cons.mpr ⟨rfl, h⟩)
          have hlk := lookupChild_setChild ch p
            (((lookupChild ch p).getD (Node.new s)).put_key bs' s it) p
          rw [if_pos rfl] at hlk
          rw [Node.allItemsAt_mk_cons_some P' hlk]
          cases hl : lookupChild ch p with
          | none =>
            simp only [Option.getD_none]
            rw [ih hpre', Node.allItemsAt_new, Node.allItemsAt_mk_cons_none P' hl]
          | some c =>
            simp only [Option.getD_some]
            rw [ih hpre', Node.allItemsAt_mk_cons_some P' hl]
        · have hlk := lookupChild_setChild ch b
            (((lookupChild ch b).getD (Node.new s)).put_key bs' s it) p
          rw [if_neg hpb] at hlk
          cases hl : lookupChild ch p with
          | none =>
            rw [hl] at hlk
            rw [Node.allItemsAt_mk_cons_none P' hlk, Node.allItemsAt_mk_cons_none P' hl]
          | some c =>
            rw [hl] at hlk
            rw [Node.allItemsAt_mk_cons_some P' hlk, Node.allItemsAt_mk_cons_some P' hl]

/-! ### Which paths exist after an insertion -/

theorem Node.descendent_mk_cons_none {T : Type} {items : List (T × Score)}
    {ch : List (Nat × Node T)} {ms : Score} {p : Nat} (P' : List Nat)
    (h : lookupChild ch p = none) :
    (Node.mk items ch ms).descendent (p :: P') = none := by
  simp [Node.descendent, h]

theorem Node.descendent_mk_cons_some {T : Type} {items : List (T × Score)}
    {ch : List (Nat × Node T)} {ms : Score} {p : Nat} {c : Node T} (P' : List Nat)
    (h : lookupChild ch p = some c) :
    (Node.mk items ch ms).descendent (p :: P') = c.descendent P' := by
  simp [Node.descendent, h]

theorem Node.descendent_nil {T : Type} (n : Node T) : n.descendent [] = some n := by
  cases n
  rfl

theorem Node.descendent_new_some {T : Type} {ms : Score} {P : List Nat} {m : Node T}
    (h : (Node.new ms : Node T).descendent P = some m) : P = [] := by
  cases P with
  | nil => rfl
  | cons p P' =>
    have h2 : (Node.mk [] [] ms : Node T).descendent (p :: P') = none :=
      Node.descendent_mk_cons_none P' rfl
    rw [show (Node.new ms : Node T) = Node.mk [] [] ms from rfl, h2] at h
    exact Option.noConfusion h

/-- A path reachable after `put_key` was either already reachable or is a
prefix of the inserted key's bytes. -/
theorem Node.descendent_put_key_some {T : Type} {n : Node T} {bs P : List Nat} {s : Score}
    {it : T} {m : Node T} (h : (n.put_key bs s it).descendent P = some m) :
    (∃ m', n.descendent P = some m') ∨ P <+: bs := by
  induction bs generalizing n P with
  | nil =>
    cases P with
    | nil => exact Or.inl ⟨n, Node.descendent_nil n⟩
    | cons p P' =>
      cases n with
      | mk items ch ms =>
        simp only [Node.put_key] at h
        cases hl : lookupChild ch p with
        | none =>
          rw [Node.descendent_mk_cons_none P' hl] at h
          exact Option.noConfusion h
        | some c =>
          rw [Node.descendent_mk_cons_some P' hl] at h
          exact Or.inl ⟨m, by rw [Node.descendent_mk_cons_some P' hl]; exact h⟩
  | cons b bs' ih =>
    cases P with
    | nil => exact Or.inl ⟨n, Node.descendent_nil n⟩
    | cons p P' =>
      cases n with
      | mk items ch ms =>
        simp only [Node.put_key] at h
        by_cases hpb : p = b
        · subst hpb
          have hlk := lookupChild_setChild ch p
            (((lookupChild ch p).getD (Node.new s)).put_key bs' s it) p
          rw [if_pos rfl] at hlk
          rw [Node.descendent_mk_cons_some P' hlk] at h
          cases hl : lookupChild ch p with
          | none =>
            rw [hl] at h
            simp only [Option.getD_none] at h
            rcases ih h with ⟨m', hm'⟩ | hpre
            · have hP' : P' = [] := Node.descendent_new_some hm'
              subst hP'
              exact Or.inr (List.cons_prefix_cons.mpr ⟨rfl, List.nil_prefix⟩)
            · exact Or.inr (List.cons_prefix_cons.mpr ⟨rfl, hpre⟩)
          | some c =>
            rw [hl] at h
            simp only [Option.getD_some] at h
            rcases ih h with ⟨m', hm'⟩ | hpre
            · exact Or.inl ⟨m', by rw [Node.descendent_mk_cons_some P' hl]; exact hm'⟩
            · exact Or.inr (List.cons_prefix_cons.mpr ⟨rfl, hpre⟩)
        · have hlk := lookupChild_setChild ch b
            (((lookupChild ch b).getD (Node.new s)).put_key bs' s it) p
          rw [if_neg hpb] at hlk
          cases hl : lookupChild ch p with
          | none =>
            rw [hl] at hlk
            rw [Node.descendent_mk_cons_none P' hlk] at h
            exact Option.noConfusion h
          | some c =>
            rw [hl] at hlk
            rw [Node.descendent_mk_cons_some P' hlk] at h
            exact Or.inl ⟨m, by rw [Node.descendent_mk_cons_some P' hl]; exact h⟩

/-- Insertion creates every node along the inserted key's byte path. -/
theorem Node.descendent_put_key_of_pre {T : Type} (n : Node T) {bs P : List Nat}
    (s : Score) (it : T) (hpre : P <+: bs) :
    ∃ m, (n.put_key bs s it).descendent P = some m := by
  induction bs generalizing n P with
  | nil =>
    have hP : P = [] := List.prefix_nil.mp hpre
    subst hP
    exact ⟨_, Node.descendent_nil _⟩
  | cons b bs' ih =>
    cases P with
    | nil => exact ⟨_, Node.descendent_nil _⟩
    | cons p P' =>
      obtain ⟨hpb, hpre'⟩ := List.cons_prefix_cons.mp hpre
      subst hpb
      cases n with
      | mk items ch ms =>
        simp only [Node.put_key]
        have hlk := lookupChild_setChild ch p
          (((lookupChild ch p).getD (Node.new s)).put_key bs' s it) p
        rw [if_pos rfl] at hlk
        rw [Node.descendent_mk_cons_some P' hlk]
        exact ih _ hpre'

/-! ### The cached `max_score` is the exact maximum of the subtree's scores -/

theorem Node.totalSize_pos {T : Type} (n : Node T) : 1 ≤ n.totalSize := by
  cases n with
  | mk items ch ms => simp [Node.totalSize]; omega

theorem childrenSize_mem_le {T : Type} {ch : List (Nat × Node T)} {c : Nat × Node T}
    (h : c ∈ ch) : Node.totalSize c.2 ≤ childrenSize ch := by
  induction ch with
  | nil => cases h
  | cons p rest ih =>
    obtain ⟨k, x⟩ := p
    simp only [childrenSize]
    cases h with
    | head =>
      show Node.totalSize x ≤ Node.totalSize x + childrenSize rest
      omega
    | tail _ h => have := ih h; omega

/-- Under the invariant, every score in a node's subtree is bounded by the
node's cached `max_score`. -/
theorem Node.inv.allItems_le {T : Type} {n : Node T} (hn : n.inv) :
    ∀ p ∈ n.allItems, p.2 ≤ n.max_score := by
  suffices h : ∀ (k : Nat) (n : Node T), n.totalSize ≤ k → n.inv →
      ∀ p ∈ n.allItems, p.2 ≤ n.max_score from h n.totalSize n (le_refl _) hn
  intro k
  induction k with
  | zero =>
    intro n hsz
    have := n.totalSize_pos
    omega
  | succ k ih =>
    intro n hsz hn p hp
    cases n with
    | mk items ch ms =>
      simp only [Node.allItems, List.mem_append] at hp
      rcases hp with hp | hp
      · exact hn.items_le p hp
      · obtain ⟨c, hc, hpc⟩ := mem_childrenItems.mp hp
        have hsz' : Node.totalSize c.2 ≤ k := by
          have h1 := childrenSize_mem_le hc
          simp only [Node.totalSize] at hsz
          omega
        have := ih c.2 hsz' (hn.children_inv c hc) p hpc
        exact le_trans this (hn.children_le c hc)

theorem Node.exact.mem_scores {T : Type} {n : Node T} (h : n.exact) :
    n.max_score ∈ n.allItems.map Prod.snd := by
  cases n with
  | mk items ch ms => cases h with | mk h1 h2 => exact h1

theorem Node.exact.children_exact {T : Type} {items : List (T × Score)}
    {children : List (Nat × Node T)} {ms : Score}
    (h : Node.exact (.mk items children ms)) : ∀ c ∈ children, Node.exact c.2 := by
  cases h; assumption

theorem Node.exact_descendent {T : Type} {n m : Node T} {P : List Nat}
    (hn : n.exact) (h : n.descendent P = some m) : m.exact := by
  induction P generalizing n with
  | nil =>
    simp [Node.descendent] at h
    subst h; exact hn
  | cons b bs ih =>
    cases n with
    | mk items children ms =>
      cases hl : lookupChild children b with
      | none =>
        rw [Node.descendent_mk_cons_none bs hl] at h
        exact Option.noConfusion h
      | some c =>
        rw [Node.descendent_mk_cons_some bs hl] at h
        exact ih (hn.children_exact _ (lookupChild_mem hl)) h

theorem Node.exact_put_key_new {T : Type} (bs : List Nat) (s : Score) (it : T) :
    ((Node.new s : Node T).put_key bs s it).exact := by
  induction bs with
  | nil =>
    refine Node.exact.mk ?_ ?_
    · simp [Node.new, Node.put_key, Node.allItems, childrenItems, max_self]
    · intro c hc
      simp [Node.new, Node.put_key] at hc
  | cons b bs' ih =>
    have h1 := ih.mem_scores
    rw [Node.max_score_put_key] at h1
    simp only [Node.new, Node.max_score, max_self] at h1
    refine Node.exact.mk ?_ ?_
    · simp only [Node.new, Node.put_key, lookupChild, setChild, Option.getD_none,
        Node.allItems, childrenItems, max_self, List.nil_append, List.append_nil]
      exact h1
    · intro c hc
      simp only [Node.new, Node.put_key, lookupChild, setChild, Option.getD_none,
        List.mem_singleton] at hc
      subst hc
      exact ih

theorem Node.put_key_mem_scores {T : Type} {n : Node T} (bs : List Nat) (s : Score)
    (it : T) (hwf : n.wfP) (hn : n.exact) :
    max s n.max_score ∈ ((n.put_key bs s it).allItems).map Prod.snd := by
  have hperm := (Node.allItems_put_key bs s it hwf).map Prod.snd
  rw [hperm.mem_iff]
  rcases max_choice s n.max_score with h | h <;> rw [h]
  · simp
  · simp only [List.map_cons, List.mem_cons]
    exact Or.inr hn.mem_scores

theorem Node.exact_put_key {T : Type} {n : Node T} (bs : List Nat) (s : Score) (it : T)
    (hwf : n.wfP) (hn : n.exact) : (n.put_key bs s it).exact := by
  induction bs generalizing n with
  | nil =>
    have hmem := Node.put_key_mem_scores [] s it hwf hn
    cases n with
    | mk items ch ms =>
      exact Node.exact.mk hmem hn.children_exact
  | cons b bs' ih =>
    have hmem := Node.put_key_mem_scores (b :: bs') s it hwf hn
    cases n with
    | mk items ch ms =>
      refine Node.exact.mk hmem ?_
      intro c hc
      rcases mem_setChild hc with h | h
      · subst h
        cases hl : lookupChild ch b with
        | none =>
          simp only [hl, Option.getD_none]
          exact Node.exact_put_key_new bs' s it
        | some c0 =>
          simp only [hl, Option.getD_some]
          exact ih (hwf.children_wf (b, c0) (lookupChild_mem hl))
            (hn.children_exact (b, c0) (lookupChild_mem hl))
      · exact hn.children_exact c h

/-! ### Tree-level invariants -/

theorem CompletionTree.put_eq_foldl {T : Type} (t : CompletionTree T) (item : T)
    (keys : List Key) :
    CompletionTree.put t item keys = keys.foldl (fun acc k => putKey1 acc item k) t := rfl

theorem treeWf_putKey1 {T : Type} {t : CompletionTree T} (it : T) (k : Key)
    (h : treeWf t) : treeWf (putKey1 t it k) := by
  cases t with
  | none => exact Node.wfP_put_key _ _ _ (Node.new_wfP _)
  | some n => exact Node.wfP_put_key _ _ _ h

theorem treeWf_put {T : Type} {t : CompletionTree T} (it : T) (keys : List Key)
    (h : treeWf t) : treeWf (CompletionTree.put t it keys) := by
  rw [CompletionTree.put_eq_foldl]
  induction keys generalizing t with
  | nil => exact h
  | cons k ks ih => exact ih (treeWf_putKey1 it k h)

theorem treeWf_mkTree {T : Type} (ops : List (T × List Key)) : treeWf (mkTree ops) := by
  suffices h : ∀ (ops : List (T × List Key)) (t : CompletionTree T), treeWf t →
      treeWf (ops.foldl (fun t op => CompletionTree.put t op.1 op.2) t) from
    h ops CompletionTree.default trivial
  intro ops
  induction ops with
  | nil => exact fun t h => h
  | cons op rest ih => exact fun t h => ih _ (treeWf_put op.1 op.2 h)

theorem treeInv_putKey1 {T : Type} {t : CompletionTree T} (it : T) (k : Key)
    (h : treeInv t) : treeInv (putKey1 t it k) := by
  cases t with
  | none => exact Node.inv_put_key _ _ _ (Node.new_inv _)
  | some n => exact Node.inv_put_key _ _ _ h

theorem treeInv_put {T : Type} {t : CompletionTree T} (it : T) (keys : List Key)
    (h : treeInv t) : treeInv (CompletionTree.put t it keys) := by
  rw [CompletionTree.put_eq_foldl]
  induction keys generalizing t with
  | nil => exact h
  | cons k ks ih => exact ih (treeInv_putKey1 it k h)

theorem treeInv_mkTree {T : Type} (ops : List (T × List Key)) : treeInv (mkTree ops) := by
  suffices h : ∀ (ops : List (T × List Key)) (t : CompletionTree T), treeInv t →
      treeInv (ops.foldl (fun t op => CompletionTree.put t op.1 op.2) t) from
    h ops CompletionTree.default trivial
  intro ops
  induction ops with
  | nil => exact fun t h => h
  | cons op rest ih => exact fun t h => ih _ (treeInv_put op.1 op.2 h)

theorem treeExact_putKey1 {T : Type} {t : CompletionTree T} (it : T) (k : Key)
    (hw : treeWf t) (h : treeExact t) : treeExact (putKey1 t it k) := by
  cases t with
  | none => exact Node.exact_put_key_new _ _ _
  | some n => exact Node.exact_put_key _ _ _ hw h

theorem treeExact_put {T : Type} {t : CompletionTree T} (it : T) (keys : List Key)
    (hw : treeWf t) (h : treeExact t) : treeExact (CompletionTree.put t it keys) := by
  rw [CompletionTree.put_eq_foldl]
  induction keys generalizing t with
  | nil => exact h
  | cons k ks ih => exact ih (treeWf_putKey1 it k hw) (treeExact_putKey1 it k hw h)

theorem treeExact_mkTree {T : Type} (ops : List (T × List Key)) :
    treeExact (mkTree ops) := by
  suffices h : ∀ (ops : List (T × List Key)) (t : CompletionTree T), treeWf t →
      treeExact t →
      treeExact (ops.foldl (fun t op => CompletionTree.put t op.1 op.2) t) from
    h ops CompletionTree.default trivial trivial
  intro ops
  induction ops with
  | nil => exact fun t _ h => h
  | cons op rest ih =>
    exact fun t hw h => ih _ (treeWf_put op.1 op.2 hw) (treeExact_put op.1 op.2 hw h)

/-! ### Tree-level characterizations of stored and searched items -/

theorem itemsAtT_none {T : Type} (P : List Nat) : itemsAtT (none : CompletionTree T) P = [] :=
  rfl

theorem itemsAtT_some {T : Type} (n : Node T) (P : List Nat) :
    itemsAtT (some n : CompletionTree T) P = n.itemsAt P := by
  cases h : n.descendent P <;>
    simp [itemsAtT, Node.itemsAt, CompletionTree.descendent, Option.bind, h]

theorem allItemsAtT_none {T : Type} (P : List Nat) :
    allItemsAtT (none : CompletionTree T) P = [] := rfl

theorem allItemsAtT_some {T : Type} (n : Node T) (P : List Nat) :
    allItemsAtT (some n : CompletionTree T) P = n.allItemsAt P := by
  cases h : n.descendent P <;>
    simp [allItemsAtT, Node.allItemsAt, CompletionTree.descendent, Option.bind, h]

theorem itemsAtT_putKey1 {T : Type} (t : CompletionTree T) (it : T) (k : Key)
    (P : List Nat) :
    itemsAtT (putKey1 t it k) P =
      itemsAtT t P ++ (if k.bytes = P then [(it, k.score)] else []) := by
  have base : ∀ (n : Node T), (n.put_key k.bytes k.score it).itemsAt P =
      n.itemsAt P ++ (if k.bytes = P then [(it, k.score)] else []) := by
    intro n
    rw [Node.itemsAt_put_key]
    by_cases h : P = k.bytes
    · rw [if_pos h, if_pos h.symm]
    · rw [if_neg h, if_neg (fun hh => h hh.symm), List.append_nil]
  cases t with
  | none =>
    rw [itemsAtT_none, List.nil_append]
    show (((Node.new k.score : Node T)).put_key k.bytes k.score it).itemsAt P = _
    rw [base, Node.itemsAt_new, List.nil_append]
  | some n =>
    show ((n.put_key k.bytes k.score it)).itemsAt P = _
    rw [base, itemsAtT_some]

theorem itemsAtT_put {T : Type} (t : CompletionTree T) (it : T) (keys : List Key)
    (P : List Nat) :
    itemsAtT (CompletionTree.put t it keys) P =
      itemsAtT t P ++
        keys.filterMap (fun k => if k.bytes = P then some (it, k.score) else none) := by
  rw [CompletionTree.put_eq_foldl]
  induction keys generalizing t with
  | nil => simp
  | cons k ks ih =>
    rw [List.foldl_cons, ih, itemsAtT_putKey1, List.filterMap_cons, List.append_assoc]
    by_cases h : k.bytes = P
    · rw [if_pos h, if_pos h]
      rfl
    · rw [if_neg h, if_neg h, List.nil_append]

theorem itemsAtT_mkTree {T : Type} (ops : List (T × List Key)) (P : List Nat) :
    itemsAtT (mkTree ops) P =
      (insertedAll ops).filterMap
        (fun pr => if pr.2.bytes = P then some (pr.1, pr.2.score) else none) := by
  suffices h : ∀ (ops : List (T × List Key)) (t : CompletionTree T),
      itemsAtT (ops.foldl (fun t op => CompletionTree.put t op.1 op.2) t) P =
        itemsAtT t P ++ (insertedAll ops).filterMap
          (fun pr => if pr.2.bytes = P then some (pr.1, pr.2.score) else none) by
    rw [mkTree, h ops CompletionTree.default,
      show (CompletionTree.default : CompletionTree T) = none from rfl, itemsAtT_none,
      List.nil_append]
  intro ops
  induction ops with
  | nil => intro t; simp [insertedAll]
  | cons op rest ih =>
    intro t
    rw [List.foldl_cons, ih, itemsAtT_put]
    simp only [insertedAll, List.filterMap_append, List.append_assoc]
    congr 1
    congr 1
    rw [List.filterMap_map]
    rfl

theorem allItemsAtT_putKey1_perm {T : Type} (t : CompletionTree T) (it : T) (k : Key)
    (P : List Nat) (hw : treeWf t) :
    (allItemsAtT (putKey1 t it k) P).Perm
      (allItemsAtT t P ++ (if P <+: k.bytes then [(it, k.score)] else [])) := by
  have base : ∀ (n : Node T), n.wfP → ((n.put_key k.bytes k.score it).allItemsAt P).Perm
      (n.allItemsAt P ++ (if P <+: k.bytes then [(it, k.score)] else [])) := by
    intro n hn
    by_cases h : P <+: k.bytes
    · rw [if_pos h]
      refine (Node.allItemsAt_put_key_of_pre k.score it hn h).trans ?_
      exact (List.perm_append_singleton (it, k.score) _).symm
    · rw [if_neg h, List.append_nil, Node.allItemsAt_put_key_of_not_pre k.score it h]
  cases t with
  | none =>
    rw [allItemsAtT_none, List.nil_append]
    have h1 : (allItemsAtT (putKey1 (none : CompletionTree T) it k) P) =
        ((Node.new k.score : Node T).put_key k.bytes k.score it).allItemsAt P :=
      allItemsAtT_some _ P
    rw [h1]
    refine (base _ (Node.new_wfP _)).trans ?_
    rw [Node.allItemsAt_new, List.nil_append]
  | some n =>
    have h1 : (allItemsAtT (putKey1 (some n : CompletionTree T) it k) P) =
        (n.put_key k.bytes k.score it).allItemsAt P := allItemsAtT_some _ P
    rw [h1, allItemsAtT_some]
    exact base n hw

theorem allItemsAtT_put_perm {T : Type} (t : CompletionTree T) (it : T) (keys : List Key)
    (P : List Nat) (hw : treeWf t) :
    (allItemsAtT (CompletionTree.put t it keys) P).Perm
      (allItemsAtT t P ++
        keys.filterMap (fun k => if P <+: k.bytes then some (it, k.score) else none)) := by
  rw [CompletionTree.put_eq_foldl]
  induction keys generalizing t with
  | nil => simp
  | cons k ks ih =>
    rw [List.foldl_cons]
    refine (ih _ (treeWf_putKey1 it k hw)).trans ?_
    refine ((allItemsAtT_putKey1_perm t it k P hw).append_right _).trans ?_
    by_cases h : P <+: k.bytes
    · simp only [List.filterMap_cons, if_pos h]
      rw [List.append_assoc, List.singleton_append]
    · simp only [List.filterMap_cons, if_neg h]
      rw [List.append_nil]

theorem allItemsAtT_mkTree_perm {T : Type} (ops : List (T × List Key)) (P : List Nat) :
    (allItemsAtT (mkTree ops) P).Perm
      ((insertedAll ops).filterMap
        (fun pr => if P <+: pr.2.bytes then some (pr.1, pr.2.score) else none)) := by
  suffices h : ∀ (ops : List (T × List Key)) (t : CompletionTree T), treeWf t →
      (allItemsAtT (ops.foldl (fun t op => CompletionTree.put t op.1 op.2) t) P).Perm
        (allItemsAtT t P ++ (insertedAll ops).filterMap
          (fun pr => if P <+: pr.2.bytes then some (pr.1, pr.2.score) else none)) by
    refine (h ops CompletionTree.default trivial).trans ?_
    rw [show (CompletionTree.default : CompletionTree T) = none from rfl, allItemsAtT_none,
      List.nil_append]
  intro ops
  induction ops with
  | nil => intro t _; simp [insertedAll]
  | cons op rest ih =>
    intro t hw
    rw [List.foldl_cons]
    refine (ih _ (treeWf_put op.1 op.2 hw)).trans ?_
    simp only [insertedAll, List.filterMap_append]
    refine ((allItemsAtT_put_perm t op.1 op.2 P hw).append_right _).trans ?_
    rw [List.append_assoc]
    refine List.Perm.append_left _ ?_
    refine List.Perm.append_right _ ?_
    rw [List.filterMap_map]
    exact List.Perm.refl _

/-- The sequence produced by `search` is, up to order, exactly the contents
of the subtree at the queried prefix. -/
theorem search_perm_allItemsAtT {T : Type} (t : CompletionTree T) (P : List Nat) :
    (CompletionTree.search t P).Perm (allItemsAtT t P) := by
  rw [CompletionTree.search, allItemsAtT]
  cases h : CompletionTree.descendent t P with
  | none => exact .refl _
  | some n =>
    refine (drain_perm _).trans ?_
    simp [queueContents, markerContents]

/-- Master characterization: `search prefix` yields, up to order, exactly one
`(item, score)` entry per inserted `(item, key)` pair whose key bytes extend
the queried prefix. -/
theorem search_mkTree_perm {T : Type} (ops : List (T × List Key)) (P : List Nat) :
    (CompletionTree.search (mkTree ops) P).Perm
      ((insertedAll ops).filterMap
        (fun pr => if P <+: pr.2.bytes then some (pr.1, pr.2.score) else none)) :=
  (search_perm_allItemsAtT _ _).trans (allItemsAtT_mkTree_perm ops P)

/-! ### A node exists at a path only if some inserted key extends it -/

theorem descendentT_some_eq {T : Type} (n : Node T) (P : List Nat) :
    CompletionTree.descendent (some n : CompletionTree T) P = n.descendent P := rfl

theorem descendentT_putKey1_some {T : Type} {t : CompletionTree T} {it : T} {k : Key}
    {P : List Nat} {m : Node T}
    (h : CompletionTree.descendent (putKey1 t it k) P = some m) :
    (∃ m', CompletionTree.descendent t P = some m') ∨ P <+: k.bytes := by
  cases t with
  | none =>
    have h' : (((Node.new k.score : Node T)).put_key k.bytes k.score it).descendent P =
        some m := h
    rcases Node.descendent_put_key_some h' with ⟨m', hm'⟩ | hpre
    · have hP : P = [] := Node.descendent_new_some hm'
      subst hP
      exact Or.inr List.nil_prefix
    · exact Or.inr hpre
  | some n =>
    have h' : ((n.put_key k.bytes k.score it)).descendent P = some m := h
    rcases Node.descendent_put_key_some h' with ⟨m', hm'⟩ | hpre
    · exact Or.inl ⟨m', hm'⟩
    · exact Or.inr hpre

theorem descendentT_put_some {T : Type} {t : CompletionTree T} {it : T} {keys : List Key}
    {P : List Nat} {m : Node T}
    (h : CompletionTree.descendent (CompletionTree.put t it keys) P = some m) :
    (∃ m', CompletionTree.descendent t P = some m') ∨ ∃ k ∈ keys, P <+: k.bytes := by
  rw [CompletionTree.put_eq_foldl] at h
  induction keys generalizing t with
  | nil => exact Or.inl ⟨m, h⟩
  | cons k ks ih =>
    rw [List.foldl_cons] at h
    rcases ih h with ⟨m', hm'⟩ | ⟨k', hk', hpre⟩
    · rcases descendentT_putKey1_some hm' with a | b
      · exact Or.inl a
      · exact Or.inr ⟨k, List.mem_cons_self _ _, b⟩
    · exact Or.inr ⟨k', List.mem_cons_of_mem _ hk', hpre⟩

theorem descendentT_mkTree_some {T : Type} {ops : List (T × List Key)} {P : List Nat}
    {n : Node T} (h : CompletionTree.descendent (mkTree ops) P = some n) :
    ∃ pr ∈ insertedAll ops, P <+: pr.2.bytes := by
  suffices haux : ∀ (ops : List (T × List Key)) (t : CompletionTree T),
      CompletionTree.descendent
        (ops.foldl (fun t op => CompletionTree.put t op.1 op.2) t) P = some n →
      (∃ m', CompletionTree.descendent t P = some m') ∨
        ∃ pr ∈ insertedAll ops, P <+: pr.2.bytes by
    rcases haux ops CompletionTree.default h with ⟨m', hm'⟩ | hpr
    · exact Option.noConfusion hm'
    · exact hpr
  intro ops
  induction ops with
  | nil => exact fun t h => Or.inl ⟨n, h⟩
  | cons op rest ih =>
    intro t h
    rw [List.foldl_cons] at h
    rcases ih _ h with ⟨m', hm'⟩ | ⟨pr, hpr1, hpr2⟩
    · rcases descendentT_put_some hm' with a | ⟨k, hk, hpre⟩
      · exact Or.inl a
      · refine Or.inr ⟨(op.1, k), ?_, hpre⟩
        simp only [insertedAll, List.mem_append, List.mem_map]
        exact Or.inl ⟨k, hk, rfl⟩
    · refine Or.inr ⟨pr, ?_, hpr2⟩
      simp only [insertedAll, List.mem_append]
      exact Or.inr hpr1

/-! ### Helper definitions for claim statements -/

theorem drain_eq {T : Type} (q : List (Scored (ExploreMarker T))) :
    drain q = drainFuel (queueWeight q) q := rfl

theorem insertedAll_append {T : Type} (a b : List (T × List Key)) :
    insertedAll (a ++ b) = insertedAll a ++ insertedAll b := by
  induction a with
  | nil => rfl
  | cons op rest ih => simp [insertedAll, ih]

theorem filterMap_some_eq_map {α β : Type} (g : α → β) (l : List α) :
    l.filterMap (fun a => some (g a)) = l.map g := by
  induction l with
  | nil => rfl
  | cons a rest ih => simp [List.filterMap_cons, ih]

/-- The root (if any) of a tree built by `put` operations satisfies the
invariant, and hence so does every node reachable from it. -/
theorem inv_of_descendent_mkTree {T : Type} {ops : List (T × List Key)} {P : List Nat}
    {n : Node T} (h : CompletionTree.descendent (mkTree ops) P = some n) : n.inv := by
  have htree := treeInv_mkTree ops
  cases ht : mkTree ops with
  | none => rw [ht] at h; exact Option.noConfusion h
  | some root =>
    rw [ht] at h htree
    exact Node.inv_descendent htree h

theorem exact_of_descendent_mkTree {T : Type} {ops : List (T × List Key)} {P : List Nat}
    {n : Node T} (h : CompletionTree.descendent (mkTree ops) P = some n) : n.exact := by
  have htree := treeExact_mkTree ops
  cases ht : mkTree ops with
  | none => rw [ht] at h; exact Option.noConfusion h
  | some root =>
    rw [ht] at h htree
    exact Node.exact_descendent htree h

/-! ### The claims -/

/-- C1: For every tree built by any sequence of `put` operations and every
query prefix, the sequence yielded by `search` is non-increasing in score:
whenever result `r1` is yielded before result `r2`, `score r1 ≥ score r2`. -/
theorem claimC1_search_scores_nonincreasing {T : Type} (ops : List (T × List Key))
    (P : List Nat) :
    (CompletionTree.search (mkTree ops) P).Pairwise (fun r1 r2 => r2.2 ≤ r1.2) := by
  rw [CompletionTree.search]
  cases h : CompletionTree.descendent (mkTree ops) P with
  | none => simp
  | some n =>
    have hinv : n.inv := inv_of_descendent_mkTree h
    show (drain [(⟨.node n, n.max_score⟩ : Scored (ExploreMarker T))]).Pairwise
      (fun r1 r2 => r2.2 ≤ r1.2)
    rw [drain_eq]
    refine drainFuel_sorted _ _ (le_refl _) ?_
    intro e he
    rw [List.mem_singleton] at he
    subst he
    exact ⟨rfl, hinv⟩

/-- C2: For every tree built by any sequence of `put` operations, `search`
with the empty prefix yields exactly the multiset of pairs inserted, one
occurrence per contributing key with no deduplication: an item whose
`Completable::keys` emits `N` keys appears `N` times (here as a permutation
of one `(item, score)` entry per inserted `(item, key)` pair). -/
theorem claimC2_search_empty_multiset {T : Type} (ops : List (T × List Key)) :
    (CompletionTree.search (mkTree ops) []).Perm (insertedPairs ops) := by
  refine (search_mkTree_perm ops []).trans ?_
  have h : (fun pr : T × Key => if ([] : List Nat) <+: pr.2.bytes
      then some (pr.1, pr.2.score) else none) =
      (fun pr : T × Key => some (pr.1, pr.2.score)) := by
    funext pr
    rw [if_pos List.nil_prefix]
  rw [h, insertedPairs, filterMap_some_eq_map]

/-- C3: For every tree built by any sequence of `put` operations and every
prefix, every result yielded by `search prefix` comes from an inserted
`(item, key)` pair whose key bytes have the prefix as a byte-exact prefix. -/
theorem claimC3_search_results_have_matching_key {T : Type} (ops : List (T × List Key))
    (P : List Nat) (r : T × Score) (h : r ∈ CompletionTree.search (mkTree ops) P) :
    ∃ pr ∈ insertedAll ops, pr.1 = r.1 ∧ P <+: pr.2.bytes := by
  have h2 := (search_mkTree_perm ops P).mem_iff.mp h
  obtain ⟨pr, hpr, heq⟩ := List.mem_filterMap.mp h2
  by_cases hp : P <+: pr.2.bytes
  · rw [if_pos hp] at heq
    injection heq with heq
    refine ⟨pr, hpr, ?_, hp⟩
    rw [← heq]
  · rw [if_neg hp] at heq
    exact Option.noConfusion heq

theorem claimC3_witness :
    ∃ pr ∈ insertedAll [(("ab" : String), [⟨[97, 98], 5⟩])],
      pr.1 = (("ab" : String), (5 : Score)).1 ∧ [97] <+: pr.2.bytes :=
  claimC3_search_results_have_matching_key [("ab", [⟨[97, 98], 5⟩])] [97] ("ab", 5)
    (by decide)

/-- C4: For every tree and every prefix such that no inserted key has that
prefix as a byte-exact prefix, `search prefix` yields the empty sequence (a
normal result, not an error); the witness instantiates the spec's example
(insert "alice" score 1, "alex" score 4, "adam" score -3; query "z"). -/
theorem claimC4_absent_prefix_empty {T : Type} (ops : List (T × List Key)) (P : List Nat)
    (h : ∀ pr ∈ insertedAll ops, ¬ P <+: pr.2.bytes) :
    CompletionTree.search (mkTree ops) P = [] := by
  have h2 : (insertedAll ops).filterMap
      (fun pr => if P <+: pr.2.bytes then some (pr.1, pr.2.score) else none) = [] := by
    rw [List.filterMap_eq_nil_iff]
    intro pr hpr
    rw [if_neg (h pr hpr)]
  have h3 := search_mkTree_perm ops P
  rw [h2] at h3
  exact h3.eq_nil

theorem claimC4_witness :
    CompletionTree.search (mkTree
      [(("alice" : String), [⟨[97, 108, 105, 99, 101], 1⟩]),
       ("alex", [⟨[97, 108, 101, 120], 4⟩]),
       ("adam", [⟨[97, 100, 97, 109], -3⟩])]) [122] = [] :=
  claimC4_absent_prefix_empty _ [122] (by decide)

/-- C5: After every sequence of `put` operations, every node of the tree
satisfies the invariant: its cached `max_score` is at least each child's
`max_score` and at least the score of every `(item, score)` pair stored
directly at the node. -/
theorem claimC5_max_score_invariant {T : Type} (ops : List (T × List Key)) :
    treeInv (mkTree ops) :=
  treeInv_mkTree ops

/-- C6: After inserting the single-key items "a" score 1, "aa" score 0 and
"aaa" score 1 into the empty tree, searching the empty prefix yields "a" and
"aaa" (both score 1, in some order) strictly before "aa" (score 0). -/
theorem claimC6_depth_vs_score_example :
    CompletionTree.search (mkTree
        [(("a" : String), [⟨[97], 1⟩]), ("aa", [⟨[97, 97], 0⟩]),
         ("aaa", [⟨[97, 97, 97], 1⟩])]) [] =
      [("a", 1), ("aaa", 1), ("aa", 0)] ∨
    CompletionTree.search (mkTree
        [(("a" : String), [⟨[97], 1⟩]), ("aa", [⟨[97, 97], 0⟩]),
         ("aaa", [⟨[97, 97, 97], 1⟩])]) [] =
      [("aaa", 1), ("a", 1), ("aa", 0)] := by
  left
  decide

theorem countP_filterMap_block {T : Type} [DecidableEq T] (it : T) (P : List Nat)
    (keys : List Key) :
    List.countP (fun r : T × Score => decide (r.1 = it))
      (List.filterMap
        (fun pr : T × Key => if P <+: pr.2.bytes then some (pr.1, pr.2.score) else none)
        (keys.map (fun k2 => (it, k2)))) =
      List.countP (fun k2 => decide (P <+: k2.bytes)) keys := by
  induction keys with
  | nil => rfl
  | cons k2 ks ih =>
    simp only [List.map_cons, List.filterMap_cons]
    by_cases h : P <+: k2.bytes
    · rw [if_pos h]
      simp only [List.countP_cons, ih, decide_eq_true h, decide_eq_true (rfl : it = it)]
      simp
    · rw [if_neg h]
      simp only [List.countP_cons, ih]
      rw [if_neg (by simp [h])]
      omega

/-- C7: `put` is not idempotent. Inserting `(it, keys)` twice instead of once
makes any search whose prefix is the bytes of one of the item's keys yield the
item once more per matching key (in particular at least once more): the
duplicate entries add up, nothing is replaced. -/
theorem claimC7_put_not_idempotent {T : Type} [DecidableEq T]
    (ops : List (T × List Key)) (it : T) (keys : List Key) (k : Key) (hk : k ∈ keys) :
    List.countP (fun r : T × Score => decide (r.1 = it))
        (CompletionTree.search (mkTree (ops ++ [(it, keys), (it, keys)])) k.bytes) =
      List.countP (fun r : T × Score => decide (r.1 = it))
          (CompletionTree.search (mkTree (ops ++ [(it, keys)])) k.bytes) +
        List.countP (fun k2 => decide (k.bytes <+: k2.bytes)) keys ∧
    List.countP (fun r : T × Score => decide (r.1 = it))
          (CompletionTree.search (mkTree (ops ++ [(it, keys)])) k.bytes) + 1 ≤
      List.countP (fun r : T × Score => decide (r.1 = it))
        (CompletionTree.search (mkTree (ops ++ [(it, keys), (it, keys)])) k.bytes) := by
  have hc : ∀ (ops2 : List (T × List Key)),
      List.countP (fun r : T × Score => decide (r.1 = it))
          (CompletionTree.search (mkTree ops2) k.bytes) =
        List.countP (fun r : T × Score => decide (r.1 = it))
          ((insertedAll ops2).filterMap
            (fun pr => if k.bytes <+: pr.2.bytes then some (pr.1, pr.2.score) else none)) :=
    fun ops2 => List.Perm.countP_eq _ (search_mkTree_perm ops2 k.bytes)
  have e1 : insertedAll (ops ++ [(it, keys)]) =
      insertedAll ops ++ keys.map (fun k2 => (it, k2)) := by
    rw [insertedAll_append]
    simp [insertedAll]
  have e2 : insertedAll (ops ++ [(it, keys), (it, keys)]) =
      insertedAll ops ++
        (keys.map (fun k2 => (it, k2)) ++ keys.map (fun k2 => (it, k2))) := by
    rw [insertedAll_append]
    simp [insertedAll]
  have hpos : 0 < List.countP (fun k2 => decide (k.bytes <+: k2.bytes)) keys :=
    List.countP_pos_iff.mpr ⟨k, hk, decide_eq_true (List.prefix_refl _)⟩
  rw [hc, hc, e1, e2, List.filterMap_append, List.filterMap_append, List.filterMap_append,
    List.countP_append, List.countP_append, List.countP_append, countP_filterMap_block]
  constructor
  · omega
  · omega

theorem claimC7_witness :
    List.countP (fun r : String × Score => decide (r.1 = "x"))
        (CompletionTree.search (mkTree
          ([] ++ [("x", [(⟨[120], 2⟩ : Key)]), ("x", [(⟨[120], 2⟩ : Key)])]))
          (Key.bytes ⟨[120], 2⟩)) =
      List.countP (fun r : String × Score => decide (r.1 = "x"))
          (CompletionTree.search (mkTree ([] ++ [("x", [(⟨[120], 2⟩ : Key)])]))
            (Key.bytes ⟨[120], 2⟩)) +
        List.countP (fun k2 : Key => decide (Key.bytes ⟨[120], 2⟩ <+: k2.bytes))
          [(⟨[120], 2⟩ : Key)] ∧
    List.countP (fun r : String × Score => decide (r.1 = "x"))
          (CompletionTree.search (mkTree ([] ++ [("x", [(⟨[120], 2⟩ : Key)])]))
            (Key.bytes ⟨[120], 2⟩)) + 1 ≤
      List.countP (fun r : String × Score => decide (r.1 = "x"))
        (CompletionTree.search (mkTree
          ([] ++ [("x", [(⟨[120], 2⟩ : Key)]), ("x", [(⟨[120], 2⟩ : Key)])]))
          (Key.bytes ⟨[120], 2⟩)) :=
  claimC7_put_not_idempotent [] "x" [⟨[120], 2⟩] ⟨[120], 2⟩ (by decide)

/-- C8: Combining score bounds never overflows. The code only compares scores
(`std::cmp::max`), so for every insertion sequence whose scores lie in the
`i32` range (including `i32::MIN` and `i32::MAX`) every cached `max_score`
along every path equals the exact mathematical maximum of the scores in its
subtree — it occurs among them and bounds them — and stays in the `i32`
range: no wraparound and no panic. -/
theorem claimC8_max_exact_no_overflow {T : Type} (ops : List (T × List Key))
    (hb : ∀ pr ∈ insertedAll ops,
      -(2 ^ 31) ≤ pr.2.score ∧ pr.2.score ≤ 2 ^ 31 - 1)
    (P : List Nat) : maxScoreExactAt (mkTree ops) P (-(2 ^ 31)) (2 ^ 31 - 1) := by
  unfold maxScoreExactAt
  split
  · trivial
  · rename_i n h
    have hinv : n.inv := inv_of_descendent_mkTree h
    have hex : n.exact := exact_of_descendent_mkTree h
    have hmem := hex.mem_scores
    refine ⟨hmem, ?_, ?_⟩
    · intro sc hsc
      obtain ⟨p, hp, hps⟩ := List.mem_map.mp hsc
      rw [← hps]
      exact hinv.allItems_le p hp
    · obtain ⟨p, hp, hps⟩ := List.mem_map.mp hmem
      have hmem2 : p ∈ allItemsAtT (mkTree ops) P := by
        rw [allItemsAtT, h]
        exact hp
      have h2 := (allItemsAtT_mkTree_perm ops P).mem_iff.mp hmem2
      obtain ⟨pr, hpr, heq⟩ := List.mem_filterMap.mp h2
      by_cases hpre : P <+: pr.2.bytes
      · rw [if_pos hpre] at heq
        injection heq with heq
        have hsc : n.max_score = pr.2.score := by
          rw [← hps, ← heq]
        rw [hsc]
        exact (hb pr hpr)
      · rw [if_neg hpre] at heq
        exact Option.noConfusion heq

theorem claimC8_witness :
    maxScoreExactAt (mkTree
      [(("min" : String), [⟨[0], -(2 ^ 31)⟩]),
       ("max", [⟨[0, 1], 2 ^ 31 - 1⟩])]) [0] (-(2 ^ 31)) (2 ^ 31 - 1) :=
  claimC8_max_exact_no_overflow _ (by decide) [0]

/-- C9: A key with empty byte sequence is valid and terminates at the root:
whenever some `put` inserts an item with an empty-bytes key of score `s`, the
pair `(item, s)` is stored directly at the root node and is yielded by
`search` with the empty prefix; and via such a key only the empty prefix
matches: on a tree holding just that key, every nonempty prefix yields
nothing. -/
theorem claimC9_empty_key_at_root {T : Type} (it : T) (s : Score)
    (ops1 ops2 : List (T × List Key)) (keys1 keys2 : List Key) :
    ((it, s) ∈ itemsAtT (mkTree (ops1 ++ (it, keys1 ++ ⟨[], s⟩ :: keys2) :: ops2)) []) ∧
    ((it, s) ∈ CompletionTree.search
      (mkTree (ops1 ++ (it, keys1 ++ ⟨[], s⟩ :: keys2) :: ops2)) []) ∧
    (∀ P : List Nat, P ≠ [] →
      CompletionTree.search (mkTree [(it, [⟨[], s⟩])]) P = []) := by
  have hmem : (it, (⟨[], s⟩ : Key)) ∈
      insertedAll (ops1 ++ (it, keys1 ++ ⟨[], s⟩ :: keys2) :: ops2) := by
    rw [insertedAll_append]
    apply List.mem_append_right
    simp only [insertedAll, List.mem_append, List.mem_map]
    exact Or.inl ⟨⟨[], s⟩, by simp, rfl⟩
  refine ⟨?_, ?_, ?_⟩
  · rw [itemsAtT_mkTree]
    exact List.mem_filterMap.mpr ⟨(it, ⟨[], s⟩), hmem, by rw [if_pos rfl]⟩
  · refine (search_mkTree_perm _ []).mem_iff.mpr ?_
    exact List.mem_filterMap.mpr ⟨(it, ⟨[], s⟩), hmem, by rw [if_pos List.nil_prefix]⟩
  · intro P hP
    have h2 : (insertedAll [(it, [(⟨[], s⟩ : Key)])]).filterMap
        (fun pr => if P <+: pr.2.bytes then some (pr.1, pr.2.score) else none) = [] := by
      rw [List.filterMap_eq_nil_iff]
      intro pr hpr
      simp only [insertedAll, List.map_cons, List.map_nil, List.append_nil,
        List.mem_singleton] at hpr
      subst hpr
      rw [if_neg (fun hpre => hP (List.prefix_nil.mp hpre))]
    have h3 := search_mkTree_perm [(it, [(⟨[], s⟩ : Key)])] P
    rw [h2] at h3
    exact h3.eq_nil

theorem claimC9_witness :
    ((("w" : String), (7 : Score)) ∈
      itemsAtT (mkTree ([] ++ ("w", [] ++ ⟨[], 7⟩ :: []) :: [])) []) ∧
    ((("w" : String), (7 : Score)) ∈ CompletionTree.search
      (mkTree ([] ++ ("w", [] ++ ⟨[], 7⟩ :: []) :: [])) []) ∧
    CompletionTree.search (mkTree [(("w" : String), [⟨[], 7⟩])]) [0] = [] := by
  have h := claimC9_empty_key_at_root ("w" : String) 7 [] [] [] []
  exact ⟨h.1, h.2.1, h.2.2 [0] (by decide)⟩

/-- C10: Inserting an item whose `Completable::keys` list is empty is a
complete no-op: `put` returns the tree unchanged (a `put` of such an item
anywhere in an insertion sequence can be dropped), an empty tree stays empty,
and no search with any prefix ever yields the item. -/
theorem claimC10_put_no_keys_noop {T : Type} (it : T) :
    (∀ t : CompletionTree T, CompletionTree.put t it [] = t) ∧
    (mkTree [(it, ([] : List Key))] = (CompletionTree.default : CompletionTree T)) ∧
    (∀ ops1 ops2 : List (T × List Key),
      mkTree (ops1 ++ (it, ([] : List Key)) :: ops2) = mkTree (ops1 ++ ops2)) ∧
    (∀ P : List Nat, CompletionTree.search (mkTree [(it, ([] : List Key))]) P = []) := by
  refine ⟨fun t => rfl, rfl, ?_, fun P => rfl⟩
  intro ops1 ops2
  rw [mkTree, mkTree, List.foldl_append, List.foldl_append, List.foldl_cons]
  rfl

end CompletionTrie
